import Mathlib

/-
Verification of the tilemaker core (src/indexed_array.cpp, src/osm_store.cpp,
src/tilemaker.cpp) through a shallow embedding in Lean.

Conventions of the embedding:
- C++ unsigned integers are modelled as `Nat`; `int64_t` quantities as `Int`.
- Code that throws (`std::out_of_range`, `unordered_map::at` / `vector::at`
  style NotFound) or would dereference an invalid iterator is modelled with
  `Option`: `none` is the exceptional outcome, `some` the normal return.
- `std::unordered_map` (the backing of NodeStore / WayStore / RelationStore)
  is modelled as an association list with `emplace` semantics: an insert with
  an already-present key changes nothing (first value wins), exactly as
  `unordered_map::emplace` behaves.
- Points in osm_store.cpp are `(lon/1e7, latp/1e7)` doubles built from the
  fixed-point integer pair; the map `n ↦ n/1e7` is injective on the fixed
  point range (spacing of doubles near |x| ≤ 430 is far below 1e-7), and
  `boost::geometry::equals` on points is coordinate-wise equality, so a point
  is modelled as the integer pair itself and point equality as pair equality.
-/

namespace Tilemaker

/-- NodeID: `uint64_t` (or `uint32_t` with COMPACT_NODES), modelled as Nat. -/
abbrev NodeID := Nat

/-- WayID: `uint32_t`, modelled as Nat; values are below 2^32. -/
abbrev WayID := Nat

/-- PSEUDO_WAY_OUTER_MARK = static_cast of -1 to uint32_t, i.e. 2^32 - 1. -/
def PSEUDO_WAY_OUTER_MARK : WayID := 4294967295

/-- PSEUDO_WAY_INNER_MARK = 2^32 - 2. -/
def PSEUDO_WAY_INNER_MARK : WayID := 4294967294

/-- PSEUDO_WAY_REVERSE_MARK = 2^32 - 3. -/
def PSEUDO_WAY_REVERSE_MARK : WayID := 4294967293

/-- Modelled from the spec: `LatpLon` is defined in coordinates.cpp, which is
not among the provided sources.  The spec (§3) describes it as a pair of
fixed-point scaled integers (1e7 units): `latp` a Mercator-projected latitude
and `lon` a raw longitude. -/
structure LatpLon where
  latp : Int
  lon : Int
deriving DecidableEq, Repr

/-- Modelled from the spec: `sqDist` lives in coordinates.cpp (not among the
provided sources); the spec (§4.2) calls it "squared Euclidean distance over
`(latp,lon)` fixed-point integers" returning `int64_t`. -/
def sqDist (a b : LatpLon) : Int :=
  (a.latp - b.latp) * (a.latp - b.latp) + (a.lon - b.lon) * (a.lon - b.lon)

--
-- std::unordered_map model shared by NodeStore, WayStore and RelationStore.
--

/-- Association-list model of the `std::unordered_map` that backs the three
hash stores of osm_store.cpp.  Only the operations the stores use (`at`,
`count`, `emplace`, `clear`) are modelled. -/
structure HashMapModel (α β : Type) where
  entries : List (α × β)
deriving DecidableEq, Repr

namespace HashMapModel

variable {α β : Type} [DecidableEq α]

/-- Lookup, `unordered_map::at`; `none` models the NotFound exception. -/
def at? (m : HashMapModel α β) (k : α) : Option β :=
  (m.entries.find? (fun e => e.1 = k)).map (·.2)

/-- Membership count, `unordered_map::count`: 1 if found, 0 otherwise. -/
def count (m : HashMapModel α β) (k : α) : Nat :=
  if (m.at? k).isSome then 1 else 0

/-- Insertion, `unordered_map::emplace`: no effect when the key is present. -/
def emplace (m : HashMapModel α β) (k : α) (v : β) : HashMapModel α β :=
  if (m.at? k).isSome then m else ⟨m.entries ++ [(k, v)]⟩

/-- `clear()` empties the map. -/
def clear (_ : HashMapModel α β) : HashMapModel α β := ⟨[]⟩

end HashMapModel

/-- NodeStore (osm_store.cpp): `unordered_map<NodeID, LatpLon>`. -/
abbrev NodeStore := HashMapModel NodeID LatpLon

/-- NodeStore::insert_back delegates to `emplace`. -/
def NodeStore.insert_back (s : NodeStore) (i : NodeID) (coord : LatpLon) : NodeStore :=
  s.emplace i coord

/-- WayStore (osm_store.cpp): `unordered_map<WayID, const vector<NodeID>>`. -/
abbrev WayStore := HashMapModel WayID (List NodeID)

/-- WayStore::insert_back delegates to `emplace`. -/
def WayStore.insert_back (s : WayStore) (i : WayID) (nodeVec : List NodeID) : WayStore :=
  s.emplace i nodeVec

/-- RelationStore (osm_store.cpp): `unordered_map<WayID, const vector<WayID>>`. -/
abbrev RelationStore := HashMapModel WayID (List WayID)

/-- RelationStore::insert_back delegates to `emplace`. -/
def RelationStore.insert_back (s : RelationStore) (i : WayID) (wayVec : List WayID) :
    RelationStore :=
  s.emplace i wayVec

--
-- Sorted-array stores of indexed_array.cpp.
--

/-- KeyValArrays (indexed_array.cpp): two parallel vectors of keys and
values; keys are kept strictly increasing by `insert_back`.  The C++ class is
templated over KeyT; keys are modelled as Nat. -/
structure KeyValArrays (V : Type) where
  keys : List Nat
  values : List V
deriving DecidableEq, Repr

namespace KeyValArrays

variable {V : Type}

/-- Index of `std::lower_bound(keys, k)`: position of the first element not
less than `k`.  On a sorted list (the only state `insert_back` can build, and
the precondition of `std::lower_bound`) this is the number of elements
below `k`. -/
def lowerBoundIdx (keys : List Nat) (k : Nat) : Nat :=
  (keys.takeWhile (fun x => x < k)).length

/-- KeyValArrays::at — `none` models the `std::out_of_range("not found")`
throw; `values[idx]` is an unchecked vector access, modelled with `get?`
(in any state built by `insert_back` the index is in range). -/
def at? (s : KeyValArrays V) (k : Nat) : Option V :=
  let idx := lowerBoundIdx s.keys k
  match s.keys[idx]? with
  | none => none
  | some k' => if k' = k then s.values[idx]? else none

/-- KeyValArrays::count: `binary_search` on the sorted key vector converted
to `size_t`, i.e. 1 when the key occurs, else 0. -/
def count (s : KeyValArrays V) (k : Nat) : Nat :=
  if k ∈ s.keys then 1 else 0

/-- KeyValArrays::insert_back — `none` models the
`std::out_of_range("lnserting with a smaller key")` throw (which leaves the
container untouched); on success both parallel vectors grow by one. -/
def insert_back (s : KeyValArrays V) (k : Nat) (v : V) : Option (KeyValArrays V) :=
  match s.keys.getLast? with
  | some kb => if k ≤ kb then none else some ⟨s.keys ++ [k], s.values ++ [v]⟩
  | none => some ⟨s.keys ++ [k], s.values ++ [v]⟩

/-- KeyValArrays::clear resets to a default-constructed object. -/
def clear (_ : KeyValArrays V) : KeyValArrays V := ⟨[], []⟩

end KeyValArrays

/-- IndexedKeyValArrays (indexed_array.cpp): keys, an offset vector
`indexes`, and a flat `values` vector; the values of the key of rank r live
at offsets `[indexes[r], indexes[r+1])`. -/
structure IndexedKeyValArrays (V : Type) where
  keys : List Nat
  indexes : List Nat
  values : List V
deriving DecidableEq, Repr

namespace IndexedKeyValArrays

variable {V : Type}

/-- The default constructor: `indexes({0})`. -/
def init : IndexedKeyValArrays V := ⟨[], [0], []⟩

/-- IndexedKeyValArrays::at, kept as the pair of offsets the returned
iterator pair denotes: `(indexes[rank], indexes[rank+1])`.  `none` models the
`std::out_of_range("Not Found")` throw; the two `indexes` accesses are
unchecked in C++ and modelled with `getD` (the class invariant keeps them in
range). -/
def atRange? (s : IndexedKeyValArrays V) (k : Nat) : Option (Nat × Nat) :=
  let rank := KeyValArrays.lowerBoundIdx s.keys k
  match s.keys[rank]? with
  | none => none
  | some k' =>
    if k' = k then some (s.indexes.getD rank 0, s.indexes.getD (rank + 1) 0) else none

/-- The value slice the iterator pair of `at` denotes. -/
def at? (s : IndexedKeyValArrays V) (k : Nat) : Option (List V) :=
  (s.atRange? k).map (fun r => (s.values.drop r.1).take (r.2 - r.1))

/-- IndexedKeyValArrays::count, as in `KeyValArrays`. -/
def count (s : IndexedKeyValArrays V) (k : Nat) : Nat :=
  if k ∈ s.keys then 1 else 0

/-- IndexedKeyValArrays::insert_back — `none` models the
`std::out_of_range("inserting with a smaller key")` throw; on success the
values are appended and the new end offset (the new `values.size()`) is
pushed onto `indexes`. -/
def insert_back (s : IndexedKeyValArrays V) (k : Nat) (vs : List V) :
    Option (IndexedKeyValArrays V) :=
  match s.keys.getLast? with
  | some kb =>
    if k ≤ kb then none
    else some ⟨s.keys ++ [k], s.indexes ++ [s.values.length + vs.length], s.values ++ vs⟩
  | none => some ⟨s.keys ++ [k], s.indexes ++ [s.values.length + vs.length], s.values ++ vs⟩

/-- IndexedKeyValArrays::clear resets to a default-constructed object. -/
def clear (_ : IndexedKeyValArrays V) : IndexedKeyValArrays V := init

end IndexedKeyValArrays

--
-- Geometry views (osm_store.cpp): points, rings, polygons.
--

/-- A Point of the projected plane: the boost `point_xy<double>` built as
`(lon/1e7, latp/1e7)`; modelled by the fixed-point pair `(lon, latp)` itself
(the scaling is injective, and `geom::equals` is coordinate-wise). -/
abbrev Point := Int × Int

/-- A Ring is a sequence of points. -/
abbrev Ring := List Point

/-- A Polygon is an outer ring plus a list of interior rings. -/
structure Polygon where
  outer : Ring
  inners : List Ring
deriving DecidableEq, Repr

/-- A MultiPolygon is a list of polygons. -/
abbrev MultiPolygon := List Polygon

/-- Conversion of a stored coordinate to a Point, `geom::make<Point>(lon/1e7,
latp/1e7)` with the injective `1e7` scaling dropped. -/
def toPoint (ll : LatpLon) : Point := (ll.lon, ll.latp)

/-- The OSM store: the three hash stores (osm_store.cpp `struct OSMStore`). -/
structure OSMStore where
  nodes : NodeStore
  ways : WayStore
  relations : RelationStore

namespace OSMStore

/-- The push loop of OSMStore::fillPoints: walk the node list, translate each
node, skip a point equal to the last point seen (`lastP`), count the pushes.
`lastP` is `none` when the sink was empty: the C++ dummy initial value
`(123456789.0, 123456789.0)` corresponds to `lon = latp = 1234567890000000`,
which is outside the `int32_t` fixed-point range, so no real point compares
equal to it.  A node absent from the NodeStore makes `nodes.at` throw,
modelled as `none`. -/
def fillPush (nodes : NodeStore) :
    List NodeID → Option Point → List Point → Nat → Option (List Point × Nat)
  | [], _, acc, cnt => some (acc, cnt)
  | n :: rest, lastP, acc, cnt =>
    match nodes.at? n with
    | none => none
    | some ll =>
      let p := toPoint ll
      if some p = lastP then fillPush nodes rest (some p) acc cnt
      else fillPush nodes rest (some p) (acc ++ [p]) (cnt + 1)

/-- OSMStore::fillPoints: push the translated node list onto the sink with
adjacent deduplication, then, if `reverse`, reverse in place the range
`[end - nodeCnt, end)` — functionally, the final `nodeCnt` elements. -/
def fillPoints (nodes : NodeStore) (points : List Point) (nodeList : List NodeID)
    (reverse : Bool) : Option (List Point) :=
  match fillPush nodes nodeList points.getLast? points 0 with
  | none => none
  | some (pts, cnt) =>
    if reverse then some (pts.take (pts.length - cnt) ++ (pts.drop (pts.length - cnt)).reverse)
    else some pts

/-- The inner `for` loop of OSMStore::wayListMultiPolygon: consume way IDs
into the current ring until the end of the list or an OUTER/INNER mark is
reached, treating REVERSE_MARK as a one-shot prefix on the next ID.  `none`
models the two failure modes of the C++ loop: a REVERSE_MARK as the final
element (the `++it` would run past the end) and a way ID on which `ways.at`
throws. -/
def ringFill (st : OSMStore) : List WayID → Ring → Option (Ring × List WayID)
  | [], ring => some (ring, [])
  | w :: rest, ring =>
    if w = PSEUDO_WAY_OUTER_MARK ∨ w = PSEUDO_WAY_INNER_MARK then some (ring, w :: rest)
    else if w = PSEUDO_WAY_REVERSE_MARK then
      match rest with
      | [] => none
      | w' :: rest' =>
        match st.ways.at? w' with
        | none => none
        | some nl =>
          match fillPoints st.nodes ring nl true with
          | none => none
          | some ring' => ringFill st rest' ring'
    else
      match st.ways.at? w with
      | none => none
      | some nl =>
        match fillPoints st.nodes ring nl false with
        | none => none
        | some ring' => ringFill st rest ring'

theorem ringFill_nil (st : OSMStore) (ring : Ring) :
    ringFill st [] ring = some (ring, []) := rfl

theorem ringFill_cons (st : OSMStore) (w : WayID) (rest : List WayID) (ring : Ring) :
    ringFill st (w :: rest) ring =
      if w = PSEUDO_WAY_OUTER_MARK ∨ w = PSEUDO_WAY_INNER_MARK then some (ring, w :: rest)
      else if w = PSEUDO_WAY_REVERSE_MARK then
        match rest with
        | [] => none
        | w' :: rest' =>
          match st.ways.at? w' with
          | none => none
          | some nl =>
            match fillPoints st.nodes ring nl true with
            | none => none
            | some ring' => ringFill st rest' ring'
      else
        match st.ways.at? w with
        | none => none
        | some nl =>
          match fillPoints st.nodes ring nl false with
          | none => none
          | some ring' => ringFill st rest ring' := by
  rw [ringFill.eq_def]

theorem ringFill_length_le_aux (st : OSMStore) :
    ∀ (n : Nat) (l : List WayID) (ring r : Ring) (l' : List WayID),
      l.length ≤ n → ringFill st l ring = some (r, l') → l'.length ≤ l.length := by
  intro n
  induction n with
  | zero =>
    intro l ring r l' hn h
    cases l with
    | nil => rw [ringFill_nil] at h; cases h; exact le_refl _
    | cons w rest => simp only [List.length_cons] at hn; omega
  | succ n ih =>
    intro l ring r l' hn h
    cases l with
    | nil => rw [ringFill_nil] at h; cases h; exact le_refl _
    | cons w rest =>
      rw [ringFill_cons] at h
      split at h
      · cases h; exact le_refl _
      · split at h
        · cases rest with
          | nil => cases h
          | cons w' rest' =>
            cases hat : st.ways.at? w' with
            | none => simp [hat] at h
            | some nl =>
              simp only [hat] at h
              cases hfp : fillPoints st.nodes ring nl true with
              | none => simp [hfp] at h
              | some ring' =>
                simp only [hfp] at h
                have hr : rest'.length ≤ n := by
                  simp only [List.length_cons] at hn; omega
                have := ih rest' ring' r l' hr h
                simp only [List.length_cons]; omega
        · cases hat : st.ways.at? w with
          | none => simp [hat] at h
          | some nl =>
            simp only [hat] at h
            cases hfp : fillPoints st.nodes ring nl false with
            | none => simp [hfp] at h
            | some ring' =>
              simp only [hfp] at h
              have hr : rest.length ≤ n := by
                simp only [List.length_cons] at hn; omega
              have := ih rest ring' r l' hr h
              simp only [List.length_cons]; omega

theorem ringFill_length_le (st : OSMStore) {l : List WayID} {ring r : Ring}
    {l' : List WayID} (h : ringFill st l ring = some (r, l')) : l'.length ≤ l.length :=
  ringFill_length_le_aux st l.length l ring r l' (le_refl _) h

/-- The `mp.back().inners().emplace_back(move(ring))` step of
OSMStore::wayListMultiPolygon: append a ring to the inners of the last
polygon.  `none` models `mp.back()` on an empty multipolygon (invalid in
C++; unreachable in the loop because the first ring is always an outer). -/
def placeInner : MultiPolygon → Ring → Option MultiPolygon
  | [], _ => none
  | [p], ring => some [⟨p.outer, p.inners ++ [ring]⟩]
  | p :: q :: rest, ring => (placeInner (q :: rest) ring).map (p :: ·)

/-- The do-while loop of OSMStore::wayListMultiPolygon, entered at the top of
an iteration.  With `isOuter = true` (only the first iteration) the short
circuit in `isOuter = isOuter || *it++ == PSEUDO_WAY_OUTER_MARK` leaves the
iterator untouched; afterwards each iteration first consumes the mark that
ended the previous ring and recomputes `isOuter` from it.  The list argument
is the rest of the encoded sequence from the current iterator position. -/
def mpLoopAux (st : OSMStore) (l : List WayID) (isOuter : Bool) (mp : MultiPolygon) :
    Option MultiPolygon :=
  match isOuter with
  | true =>
    match hr : ringFill st l [] with
    | none => none
    | some (ring, l') =>
      let mp' := mp ++ [⟨ring, []⟩]
      if l' = [] then some mp' else mpLoopAux st l' false mp'
  | false =>
    match l with
    | [] => none
    | w :: r =>
      match hr : ringFill st r [] with
      | none => none
      | some (ring, l') =>
        match (if w = PSEUDO_WAY_OUTER_MARK then some (mp ++ [⟨ring, []⟩])
               else placeInner mp ring) with
        | none => none
        | some mp' => if l' = [] then some mp' else mpLoopAux st l' false mp'
termination_by (l.length, isOuter.toNat)
decreasing_by
  · have hle := ringFill_length_le st hr
    rcases Nat.lt_or_ge l'.length l.length with hlt | hge
    · exact Prod.Lex.left _ _ hlt
    · have heq : l'.length = l.length := Nat.le_antisymm hle hge
      rw [heq]
      exact Prod.Lex.right _ Nat.zero_lt_one
  · have hle := ringFill_length_le st hr
    refine Prod.Lex.left _ _ ?h
    simp only [List.length_cons]
    omega

theorem mpLoopAux_true (st : OSMStore) (l : List WayID) (mp : MultiPolygon) :
    mpLoopAux st l true mp =
      match ringFill st l [] with
      | none => none
      | some (ring, l') =>
        if l' = [] then some (mp ++ [⟨ring, []⟩])
        else mpLoopAux st l' false (mp ++ [⟨ring, []⟩]) := by
  rw [mpLoopAux.eq_def]
  split
  · split
    · rename_i h
      rw [h]
    · rename_i ring l' h
      rw [h]
  · rename_i heq
    cases heq

theorem mpLoopAux_false_nil (st : OSMStore) (mp : MultiPolygon) :
    mpLoopAux st [] false mp = none := by
  rw [mpLoopAux.eq_def]

theorem mpLoopAux_false_cons (st : OSMStore) (w : WayID) (r : List WayID)
    (mp : MultiPolygon) :
    mpLoopAux st (w :: r) false mp =
      match ringFill st r [] with
      | none => none
      | some (ring, l') =>
        match (if w = PSEUDO_WAY_OUTER_MARK then some (mp ++ [⟨ring, []⟩])
               else placeInner mp ring) with
        | none => none
        | some mp' => if l' = [] then some mp' else mpLoopAux st l' false mp' := by
  rw [mpLoopAux.eq_def]
  split
  · rename_i heq
    cases heq
  · split
    · rename_i heq
      cases heq
    · rename_i w0 r0 heq
      injection heq with h1 h2
      subst h1
      subst h2
      split
      · rename_i h
        rw [h]
      · rename_i ring l' h
        rw [h]

/-- OSMStore::wayListMultiPolygon before the final `geom::correct(mp)`:
the state machine that distributes the encoded rings into polygons. -/
def wayListMultiPolygonRaw (st : OSMStore) (wayList : List WayID) : Option MultiPolygon :=
  if wayList = [] then some [] else mpLoopAux st wayList true []

/-- Per-polygon action of `geom::correct`: the library closes and reorients
every ring individually, so it is modelled as an arbitrary per-ring
transformation `corr` applied to the outer and to each inner ring. -/
def polygonCorrect (corr : Ring → Ring) (p : Polygon) : Polygon :=
  ⟨corr p.outer, p.inners.map corr⟩

/-- OSMStore::wayListMultiPolygon with the final `geom::correct` modelled by
the per-ring transformation `corr` (the geometry library is an external
collaborator; only its ring-wise action matters here). -/
def wayListMultiPolygon (corr : Ring → Ring) (st : OSMStore) (wayList : List WayID) :
    Option MultiPolygon :=
  (wayListMultiPolygonRaw st wayList).map (List.map (polygonCorrect corr))

/-- The points one `fillPoints` call pushes, together with the final
`nodeCnt`: the push loop run from an empty accumulator with the dedup state
`lastP` of the caller. -/
def fillAppended (nodes : NodeStore) (lastP : Option Point) (nl : List NodeID) :
    Option (List Point × Nat) :=
  fillPush nodes nl lastP [] 0

theorem fillPush_append (nodes : NodeStore) :
    ∀ (nl : List NodeID) (lastP : Option Point) (acc : List Point) (cnt : Nat),
      fillPush nodes nl lastP acc cnt =
        (fillAppended nodes lastP nl).map (fun x => (acc ++ x.1, cnt + x.2)) := by
  intro nl
  induction nl with
  | nil => intro lastP acc cnt; simp [fillPush, fillAppended]
  | cons n rest ih =>
    intro lastP acc cnt
    simp only [fillPush, fillAppended]
    cases h : nodes.at? n with
    | none => rfl
    | some ll =>
      dsimp only
      by_cases hp : some (toPoint ll) = lastP
      · rw [if_pos hp, if_pos hp, ih]
        rfl
      · rw [if_neg hp, if_neg hp, ih (some (toPoint ll)) (acc ++ [toPoint ll]) (cnt + 1),
          ih (some (toPoint ll)) ([] ++ [toPoint ll]) (0 + 1)]
        unfold fillAppended
        cases fillPush nodes rest (some (toPoint ll)) [] 0 with
        | none => rfl
        | some x =>
          simp [List.append_assoc]
          omega

theorem fillAppended_length (nodes : NodeStore) :
    ∀ (nl : List NodeID) (lastP : Option Point) (l : List Point) (c : Nat),
      fillAppended nodes lastP nl = some (l, c) → l.length = c := by
  intro nl
  induction nl with
  | nil =>
    intro lastP l c h
    simp only [fillAppended, fillPush, Option.some_inj, Prod.mk.injEq] at h
    rw [← h.1, ← h.2]
    rfl
  | cons n rest ih =>
    intro lastP l c h
    simp only [fillAppended, fillPush] at h
    cases hat : nodes.at? n with
    | none => rw [hat] at h; cases h
    | some ll =>
      rw [hat] at h
      simp only at h
      by_cases hp : some (toPoint ll) = lastP
      · rw [if_pos hp] at h
        exact ih (some (toPoint ll)) l c h
      · rw [if_neg hp, fillPush_append nodes rest (some (toPoint ll))] at h
        cases hfa : fillAppended nodes (some (toPoint ll)) rest with
        | none => rw [hfa] at h; cases h
        | some x =>
          rw [hfa] at h
          simp only [Option.map_some'] at h
          cases h
          have := ih (some (toPoint ll)) x.1 x.2 hfa
          simp [this.symm]
          omega

/-- `fillPoints` in closed form: the sink survives as a prefix and the call
appends exactly the pushed points, reversed when `reverse` is set. -/
theorem fillPoints_eq (nodes : NodeStore) (sink : List Point) (nl : List NodeID)
    (reverse : Bool) :
    fillPoints nodes sink nl reverse =
      (fillAppended nodes sink.getLast? nl).map
        (fun x => sink ++ (if reverse then x.1.reverse else x.1)) := by
  unfold fillPoints
  rw [fillPush_append nodes nl sink.getLast? sink 0]
  cases hfa : fillAppended nodes sink.getLast? nl with
  | none => rfl
  | some x =>
    have hlen := fillAppended_length nodes nl sink.getLast? x.1 x.2 hfa
    simp only [Option.map_some']
    have hcut : (sink ++ x.1).length - (0 + x.2) = sink.length := by
      simp [List.length_append]
      omega
    cases reverse with
    | false => simp
    | true =>
      simp only [if_pos rfl, hcut]
      rw [List.take_left, List.drop_left]
      simp

/-- The push loop never creates an adjacent duplicate: if the accumulator is
duplicate-free in adjacent positions and `lastP` tracks its last element,
the result is too. -/
theorem fillPush_chain (nodes : NodeStore) :
    ∀ (nl : List NodeID) (lastP : Option Point) (acc : List Point) (cnt : Nat)
      (res : List Point) (c : Nat),
      fillPush nodes nl lastP acc cnt = some (res, c) →
      List.Chain' (fun p q => p ≠ q) acc →
      (acc ≠ [] → lastP = acc.getLast?) →
      List.Chain' (fun p q => p ≠ q) res := by
  intro nl
  induction nl with
  | nil =>
    intro lastP acc cnt res c h hch _
    simp only [fillPush] at h
    cases h
    exact hch
  | cons n rest ih =>
    intro lastP acc cnt res c h hch hlast
    simp only [fillPush] at h
    cases hat : nodes.at? n with
    | none => rw [hat] at h; cases h
    | some ll =>
      rw [hat] at h
      simp only at h
      by_cases hp : some (toPoint ll) = lastP
      · rw [if_pos hp] at h
        refine ih lastP acc cnt res c ?heq hch hlast
        rw [hp] at h
        exact h
      · rw [if_neg hp] at h
        refine ih (some (toPoint ll)) (acc ++ [toPoint ll]) (cnt + 1) res c h ?hch ?hlast
        · rw [List.chain'_append]
          refine ⟨hch, List.chain'_singleton _, ?hj⟩
          intro x hx y hy
          simp only [List.head?, Option.mem_def, Option.some_inj] at hy
          subst hy
          intro hxy
          apply hp
          rw [← hxy, hlast (by rintro rfl; simp at hx)]
          exact (Option.mem_def.mp hx).symm
        · intro _
          simp

--
-- Spec-side description of the encoded-relation state machine (§4.3 of the
-- spec), used as the refinement target for wayListMultiPolygon.
--

/-- Ring descriptor: the ways of one ring, each with its reverse flag. -/
abbrev RingDesc := List (Bool × WayID)

/-- A way ID that collides with none of the three sentinel marks. -/
def isRealWayId (w : WayID) : Prop :=
  w ≠ PSEUDO_WAY_OUTER_MARK ∧ w ≠ PSEUDO_WAY_INNER_MARK ∧ w ≠ PSEUDO_WAY_REVERSE_MARK

instance (w : WayID) : Decidable (isRealWayId w) := by
  unfold isRealWayId
  infer_instance

/-- Encoding of one ring (spec §3): each way ID, preceded by REVERSE_MARK
when its reverse flag is set. -/
def encodeRing (rd : RingDesc) : List WayID :=
  rd.flatMap (fun s =>
    match s with
    | (true, w) => [PSEUDO_WAY_REVERSE_MARK, w]
    | (false, w) => [w])

/-- Encoding of the rings after the first: each preceded by OUTER_MARK (a
new polygon) or INNER_MARK (an inner ring of the current polygon). -/
def encodeMPRest (rest : List (Bool × RingDesc)) : List WayID :=
  rest.flatMap (fun s =>
    (match s.1 with
     | true => PSEUDO_WAY_OUTER_MARK
     | false => PSEUDO_WAY_INNER_MARK) :: encodeRing s.2)

/-- Encoding of a whole relation (spec §3): the first ring, then the marked
rest. -/
def encodeMP (first : RingDesc) (rest : List (Bool × RingDesc)) : List WayID :=
  encodeRing first ++ encodeMPRest rest

/-- The points of one ring, per the spec's §4.3 wording: pop the way IDs
into the ring via fillPoints, honoring REVERSE_MARK as a one-shot prefix on
the next ID. -/
def ringWays (st : OSMStore) : RingDesc → Ring → Option Ring
  | [], ring => some ring
  | s :: rest, ring =>
    match st.ways.at? s.2 with
    | none => none
    | some nl =>
      match fillPoints st.nodes ring nl s.1 with
      | none => none
      | some ring' => ringWays st rest ring'

/-- Ring placement per the spec's §4.3 wording: an outer ring starts a new
polygon, an inner ring joins the current polygon's inners. -/
def specPlace (mp : MultiPolygon) (isOuter : Bool) (ring : Ring) : Option MultiPolygon :=
  match isOuter with
  | true => some (mp ++ [⟨ring, []⟩])
  | false => placeInner mp ring

/-- The spec's §4.3 state machine after the first ring: close and place each
further ring according to the mark preceding it. -/
def specAssemble (st : OSMStore) :
    MultiPolygon → List (Bool × RingDesc) → Option MultiPolygon
  | mp, [] => some mp
  | mp, s :: rest =>
    match ringWays st s.2 [] with
    | none => none
    | some ring =>
      match specPlace mp s.1 ring with
      | none => none
      | some mp' => specAssemble st mp' rest

theorem ringFill_encodeRing (st : OSMStore) :
    ∀ (rd : RingDesc) (ring ring' : Ring) (tail : List WayID),
      (∀ s ∈ rd, isRealWayId s.2) →
      (tail = [] ∨ ∃ m t, tail = m :: t ∧
        (m = PSEUDO_WAY_OUTER_MARK ∨ m = PSEUDO_WAY_INNER_MARK)) →
      ringWays st rd ring = some ring' →
      ringFill st (encodeRing rd ++ tail) ring = some (ring', tail) := by
  intro rd
  induction rd with
  | nil =>
    intro ring ring' tail hreal htail hrw
    simp only [ringWays, Option.some_inj] at hrw
    subst hrw
    simp only [encodeRing, List.flatMap_nil, List.nil_append]
    rcases htail with rfl | ⟨m, t, rfl, hm⟩
    · exact ringFill_nil st ring
    · rw [ringFill_cons, if_pos hm]
  | cons s rest ih =>
    intro ring ring' tail hreal htail hrw
    obtain ⟨rev, w⟩ := s
    simp only [ringWays] at hrw
    cases hat : st.ways.at? w with
    | none => rw [hat] at hrw; cases hrw
    | some nl =>
      rw [hat] at hrw
      dsimp only at hrw
      cases hfp : fillPoints st.nodes ring nl rev with
      | none => rw [hfp] at hrw; cases hrw
      | some ring1 =>
        rw [hfp] at hrw
        dsimp only at hrw
        have hrealw : isRealWayId w := hreal (rev, w) (by simp)
        have hrest : ∀ u ∈ rest, isRealWayId u.2 := fun u hu => hreal u (by simp [hu])
        have ihr := ih ring1 ring' tail hrest htail hrw
        cases rev with
        | false =>
          simp only [encodeRing, List.flatMap_cons] at *
          simp only [List.singleton_append, List.cons_append, List.nil_append,
            List.append_assoc]
          rw [ringFill_cons,
            if_neg (by exact fun hc => hc.elim hrealw.1 hrealw.2.1),
            if_neg hrealw.2.2, hat]
          dsimp only
          rw [hfp]
          exact ihr
        | true =>
          simp only [encodeRing, List.flatMap_cons] at *
          simp only [List.singleton_append, List.cons_append, List.nil_append,
            List.append_assoc]
          rw [ringFill_cons, if_neg (by decide), if_pos rfl]
          dsimp only
          rw [hat]
          dsimp only
          rw [hfp]
          exact ihr

theorem encodeMPRest_nil : encodeMPRest [] = [] := rfl

theorem encodeMPRest_cons (s : Bool × RingDesc) (rest : List (Bool × RingDesc)) :
    encodeMPRest (s :: rest) =
      (match s.1 with
       | true => PSEUDO_WAY_OUTER_MARK
       | false => PSEUDO_WAY_INNER_MARK) :: (encodeRing s.2 ++ encodeMPRest rest) := by
  simp [encodeMPRest, List.flatMap_cons]

theorem encodeMPRest_shape (rest : List (Bool × RingDesc)) :
    encodeMPRest rest = [] ∨ ∃ m t, encodeMPRest rest = m :: t ∧
      (m = PSEUDO_WAY_OUTER_MARK ∨ m = PSEUDO_WAY_INNER_MARK) := by
  cases rest with
  | nil => exact Or.inl rfl
  | cons u rest' =>
    obtain ⟨ub, urd⟩ := u
    cases ub with
    | true =>
      exact Or.inr ⟨PSEUDO_WAY_OUTER_MARK, encodeRing urd ++ encodeMPRest rest',
        by simp [encodeMPRest, List.flatMap_cons], Or.inl rfl⟩
    | false =>
      exact Or.inr ⟨PSEUDO_WAY_INNER_MARK, encodeRing urd ++ encodeMPRest rest',
        by simp [encodeMPRest, List.flatMap_cons], Or.inr rfl⟩

theorem mpLoopAux_encodeMPRest (st : OSMStore) :
    ∀ (rest : List (Bool × RingDesc)) (mp : MultiPolygon),
      rest ≠ [] →
      (∀ s ∈ rest, ∀ u ∈ s.2, isRealWayId u.2) →
      (∀ s ∈ rest, ∃ r, ringWays st s.2 [] = some r) →
      mpLoopAux st (encodeMPRest rest) false mp = specAssemble st mp rest := by
  intro rest
  induction rest with
  | nil => intro mp hne; exact absurd rfl hne
  | cons s rest' ih =>
    intro mp _ hreal hres
    obtain ⟨isO, rd⟩ := s
    obtain ⟨ring, hring⟩ := hres (isO, rd) (by simp)
    have htail := encodeMPRest_shape rest'
    have hfill := ringFill_encodeRing st rd [] ring (encodeMPRest rest')
      (fun u hu => hreal (isO, rd) (by simp) u hu) htail hring
    rw [encodeMPRest_cons, mpLoopAux_false_cons, hfill]
    dsimp only
    simp only [specAssemble, hring]
    cases isO with
    | true =>
      rw [if_pos rfl]
      dsimp only [specPlace]
      cases rest' with
      | nil => rw [if_pos encodeMPRest_nil]; rfl
      | cons u rest'' =>
        rw [if_neg (by rw [encodeMPRest_cons]; exact List.cons_ne_nil _ _)]
        exact ih (mp ++ [⟨ring, []⟩]) (by simp)
          (fun v hv => hreal v (by simp [hv]))
          (fun v hv => hres v (by simp [hv]))
    | false =>
      rw [if_neg (by decide)]
      dsimp only [specPlace]
      cases hpl : placeInner mp ring with
      | none => rfl
      | some mp' =>
        dsimp only
        cases rest' with
        | nil => rw [if_pos encodeMPRest_nil]; rfl
        | cons u rest'' =>
          rw [if_neg (by rw [encodeMPRest_cons]; exact List.cons_ne_nil _ _)]
          exact ih mp' (by simp)
            (fun v hv => hreal v (by simp [hv]))
            (fun v hv => hres v (by simp [hv]))

theorem encodeRing_ne_nil (rd : RingDesc) (h : rd ≠ []) : encodeRing rd ≠ [] := by
  cases rd with
  | nil => exact absurd rfl h
  | cons s rest =>
    obtain ⟨rev, w⟩ := s
    cases rev <;> simp [encodeRing, List.flatMap_cons]

theorem wayListMultiPolygonRaw_encodeMP (st : OSMStore) (first : RingDesc)
    (rest : List (Bool × RingDesc)) (r0 : Ring)
    (hreal1 : ∀ u ∈ first, isRealWayId u.2)
    (hreal2 : ∀ s ∈ rest, ∀ u ∈ s.2, isRealWayId u.2)
    (hres : ∀ s ∈ rest, ∃ r, ringWays st s.2 [] = some r)
    (hr0 : ringWays st first [] = some r0)
    (hne : first ≠ [] ∨ rest ≠ []) :
    wayListMultiPolygonRaw st (encodeMP first rest) = specAssemble st [⟨r0, []⟩] rest := by
  have htail := encodeMPRest_shape rest
  have hfill := ringFill_encodeRing st first [] r0 (encodeMPRest rest) hreal1 htail hr0
  have hne' : encodeMP first rest ≠ [] := by
    rcases hne with h | h
    · intro hc
      exact encodeRing_ne_nil first h (by
        rcases List.append_eq_nil.mp hc with ⟨h1, _⟩
        exact h1)
    · intro hc
      rcases List.append_eq_nil.mp hc with ⟨_, h2⟩
      cases rest with
      | nil => exact absurd rfl h
      | cons u rest' => simp [encodeMPRest, List.flatMap_cons] at h2
  unfold wayListMultiPolygonRaw
  rw [if_neg hne']
  unfold encodeMP
  rw [mpLoopAux_true, hfill]
  dsimp only
  cases rest with
  | nil =>
    rw [if_pos encodeMPRest_nil]
    rfl
  | cons u rest' =>
    rw [if_neg (by rw [encodeMPRest_cons]; exact List.cons_ne_nil _ _)]
    rw [mpLoopAux_encodeMPRest st (u :: rest') _ (by simp) hreal2 hres]
    rfl

--
-- The greedy ring-construction walk of OSMStore::correctMultiPolygonRelation
-- (the do-while loop at osm_store.cpp:324-361), modelled with explicit fuel.
--

/-- One candidate step of the inner scan `for (size_t i = 0; ...)` of the
walk: skip consumed ways; otherwise try the way's first and second endpoint
in this order, taking `(sqd, i, !isFirst)` whenever `sqd < minSqd`.  The
`else if (sqd == 0)` arm only prints a warning and is omitted. -/
def scanCand (endCoords : List (LatpLon × LatpLon)) (matched : List Bool)
    (currentCoord : LatpLon) (i : Nat) (st0 : Int × Nat × Bool) : Int × Nat × Bool :=
  if matched.getD i true then st0
  else
    let ec := endCoords.getD i (⟨0, 0⟩, ⟨0, 0⟩)
    let st1 := if sqDist currentCoord ec.1 < st0.1
      then (sqDist currentCoord ec.1, i, false) else st0
    if sqDist currentCoord ec.2 < st1.1
      then (sqDist currentCoord ec.2, i, true) else st1

/-- The whole candidate scan: `minSqd` starts at the distance back to the
start of the ring, `nextIdx` at `startIdx`, and `reverse` keeps its current
value (the C++ variable is only written when a nearer candidate is found). -/
def scanMin (wayVecLen : Nat) (endCoords : List (LatpLon × LatpLon))
    (matched : List Bool) (currentCoord startCoord : LatpLon) (startIdx : Nat)
    (reverse : Bool) : Int × Nat × Bool :=
  (List.range wayVecLen).foldl
    (fun st1 i => scanCand endCoords matched currentCoord i st1)
    (sqDist currentCoord startCoord, startIdx, reverse)

/-- The do-while walk itself, entered at the top of an iteration with the
loop state `(nextIdx, reverse, matched, acc)`; `fuel` bounds the number of
iterations still allowed, and `none` means the bound was hit. -/
def ringWalk (wayVec : List WayID) (endCoords : List (LatpLon × LatpLon))
    (startCoord : LatpLon) (startIdx : Nat) :
    Nat → Nat → Bool → List Bool → List WayID → Option (List WayID × List Bool)
  | 0, _, _, _, _ => none
  | fuel + 1, nextIdx, reverse, matched, acc =>
    let matched' := matched.set nextIdx true
    let acc' := acc ++ (if reverse then [PSEUDO_WAY_REVERSE_MARK] else [])
      ++ [wayVec.getD nextIdx 0]
    let ec := endCoords.getD nextIdx (⟨0, 0⟩, ⟨0, 0⟩)
    let currentCoord := if reverse then ec.1 else ec.2
    let res := scanMin wayVec.length endCoords matched' currentCoord startCoord
      startIdx reverse
    if res.2.1 = startIdx then some (acc', matched')
    else ringWalk wayVec endCoords startCoord startIdx fuel res.2.1 res.2.2 matched' acc'

theorem foldl_preserves {β : Type} (P : β → Prop) (f : β → Nat → β) :
    ∀ (l : List Nat) (b : β), P b → (∀ i b', P b' → P (f b' i)) → P (l.foldl f b) := by
  intro l
  induction l with
  | nil => intro b hb _; exact hb
  | cons x xs ih => intro b hb hstep; exact ih (f b x) (hstep x b hb) hstep

theorem scanCand_inv (endCoords : List (LatpLon × LatpLon)) (matched : List Bool)
    (cc : LatpLon) (startIdx i : Nat) (st0 : Int × Nat × Bool)
    (h : st0.2.1 = startIdx ∨ matched.getD st0.2.1 true = false) :
    (scanCand endCoords matched cc i st0).2.1 = startIdx ∨
      matched.getD (scanCand endCoords matched cc i st0).2.1 true = false := by
  unfold scanCand
  by_cases hm : matched.getD i true
  · rw [if_pos hm]
    exact h
  · rw [if_neg hm]
    have hm' : matched.getD i true = false := by
      cases hgd : matched.getD i true
      · rfl
      · exact absurd hgd hm
    dsimp only
    split <;> (try split) <;> first
    | exact Or.inr hm'
    | exact h

theorem scanMin_inv (n : Nat) (endCoords : List (LatpLon × LatpLon))
    (matched : List Bool) (cc sc : LatpLon) (startIdx : Nat) (reverse : Bool) :
    (scanMin n endCoords matched cc sc startIdx reverse).2.1 = startIdx ∨
      matched.getD (scanMin n endCoords matched cc sc startIdx reverse).2.1 true
        = false := by
  unfold scanMin
  exact foldl_preserves
    (fun st => st.2.1 = startIdx ∨ matched.getD st.2.1 true = false)
    (fun st1 i => scanCand endCoords matched cc i st1)
    (List.range n) (sqDist cc sc, startIdx, reverse) (Or.inl rfl)
    (fun i b' hb' => scanCand_inv endCoords matched cc startIdx i b' hb')

theorem count_false_set (matched : List Bool) (i : Nat)
    (h : matched.getD i true = false) :
    (matched.set i true).count false + 1 = matched.count false := by
  induction matched generalizing i with
  | nil => simp [List.getD] at h
  | cons b rest ih =>
    cases i with
    | zero =>
      simp only [List.getD_cons_zero] at h
      subst h
      simp [List.count_cons]
    | succ j =>
      simp only [List.getD_cons_succ] at h
      have := ih j h
      simp only [List.set, List.count_cons]
      omega

/-- Any iteration of the walk either ends the ring (the scan falls back to
`startIdx`) or hands over an unconsumed way that the next iteration then
consumes, so the count of unconsumed ways bounds the number of iterations. -/
theorem ringWalk_total (wayVec : List WayID) (endCoords : List (LatpLon × LatpLon))
    (startCoord : LatpLon) (startIdx : Nat) :
    ∀ (fuel : Nat) (nextIdx : Nat) (reverse : Bool) (matched : List Bool)
      (acc : List WayID),
      matched.count false ≤ fuel →
      matched.getD nextIdx true = false →
      (ringWalk wayVec endCoords startCoord startIdx fuel
        nextIdx reverse matched acc).isSome := by
  intro fuel
  induction fuel with
  | zero =>
    intro nextIdx reverse matched acc hcnt hnext
    exfalso
    have h1 := count_false_set matched nextIdx hnext
    omega
  | succ fuel ih =>
    intro nextIdx reverse matched acc hcnt hnext
    have hcnt' := count_false_set matched nextIdx hnext
    rw [ringWalk]
    split <;> split
    all_goals first
      | rfl
      | (rename_i hne
         exact ih _ _ _ _ (by omega)
           ((scanMin_inv _ _ _ _ _ _ _).resolve_left hne))

--
-- Inner-to-outer parenting and flattening of
-- OSMStore::correctMultiPolygonRelation (osm_store.cpp:401-449).
-- geom::within is supplied by the external geometry library; it enters the
-- model as boolean oracles over ring indices: `winInner k j` stands for
-- geom::within(innerRingVec[k], outerRingVec[j]) and `withinOO j p` for
-- geom::within(outerRingVec[j], outerRingVec[p]).
--

/-- The parent-search loop `for (size_t j = 0; ...)` (osm_store.cpp:408-414)
for one inner ring; `none` models `parent == SIZE_MAX`. -/
def parentSelect (winInner : Nat → Bool) (withinOO : Nat → Nat → Bool)
    (numOuter : Nat) : Option Nat :=
  (List.range numOuter).foldl (fun parent j =>
    if winInner j then
      match parent with
      | none => some j
      | some p => if withinOO j p then some j else parent
    else parent) none

/-- The loop over inner rings (osm_store.cpp:405-437): each inner ring with
a parent appends INNER_MARK and its way vector to the parent's bucket
`innerWayVecForOuter[parent]`; an inner ring without a parent is dropped
with a warning. -/
def collectInners (winInner : Nat → Nat → Bool) (withinOO : Nat → Nat → Bool)
    (numOuter : Nat) (innerVecs : List (List WayID)) : List (List WayID) :=
  (List.range innerVecs.length).foldl (fun buckets k =>
    match parentSelect (winInner k) withinOO numOuter with
    | none => buckets
    | some p =>
      buckets.set p ((buckets.getD p []) ++ [PSEUDO_WAY_INNER_MARK] ++ innerVecs.getD k []))
    (List.replicate numOuter [])

/-- The final concatenation (osm_store.cpp:439-449): outer way vectors in
order, separated by OUTER_MARK, each followed by its inner bucket. -/
def flattenResult (outerVecs innerFor : List (List WayID)) : List WayID :=
  (List.range outerVecs.length).foldl (fun result j =>
    (if j > 0 then result ++ [PSEUDO_WAY_OUTER_MARK] else result)
      ++ outerVecs.getD j [] ++ innerFor.getD j []) []

/-- Lines 401-449 as one function: parent every inner ring, then flatten. -/
def correctRelParenting (winInner : Nat → Nat → Bool) (withinOO : Nat → Nat → Bool)
    (outerVecs innerVecs : List (List WayID)) : List WayID :=
  flattenResult outerVecs
    (collectInners winInner withinOO outerVecs.length innerVecs)

theorem parentSelect_succ (winInner : Nat → Bool) (withinOO : Nat → Nat → Bool)
    (n : Nat) :
    parentSelect winInner withinOO (n + 1) =
      (if winInner n then
        match parentSelect winInner withinOO n with
        | none => some n
        | some p => if withinOO n p then some n else parentSelect winInner withinOO n
      else parentSelect winInner withinOO n) := by
  unfold parentSelect
  rw [List.range_succ, List.foldl_append, List.foldl_cons, List.foldl_nil]

theorem parentSelect_succ_skip (winInner : Nat → Bool) (withinOO : Nat → Nat → Bool)
    (n : Nat) (hio : winInner n = false) :
    parentSelect winInner withinOO (n + 1) = parentSelect winInner withinOO n := by
  rw [parentSelect_succ, if_neg (by simp [hio])]

theorem parentSelect_succ_new (winInner : Nat → Bool) (withinOO : Nat → Nat → Bool)
    (n : Nat) (hio : winInner n = true)
    (hprev : parentSelect winInner withinOO n = none) :
    parentSelect winInner withinOO (n + 1) = some n := by
  rw [parentSelect_succ, if_pos (by simp [hio]), hprev]

theorem parentSelect_succ_beat (winInner : Nat → Bool) (withinOO : Nat → Nat → Bool)
    (n q : Nat) (hio : winInner n = true)
    (hprev : parentSelect winInner withinOO n = some q)
    (hOO : withinOO n q = true) :
    parentSelect winInner withinOO (n + 1) = some n := by
  rw [parentSelect_succ, if_pos (by simp [hio]), hprev]
  simp [hOO]

theorem parentSelect_succ_keep (winInner : Nat → Bool) (withinOO : Nat → Nat → Bool)
    (n q : Nat) (hio : winInner n = true)
    (hprev : parentSelect winInner withinOO n = some q)
    (hOO : withinOO n q = false) :
    parentSelect winInner withinOO (n + 1) = some q := by
  rw [parentSelect_succ, if_pos (by simp [hio]), hprev]
  simp [hOO, hprev]

theorem parentSelect_none (winInner : Nat → Bool) (withinOO : Nat → Nat → Bool) :
    ∀ (n : Nat), parentSelect winInner withinOO n = none →
      ∀ j, j < n → winInner j = false := by
  intro n
  induction n with
  | zero => intro _ j hj; exact absurd hj (Nat.not_lt_zero j)
  | succ n ih =>
    intro h j hj
    cases hio : winInner n with
    | false =>
      rw [parentSelect_succ_skip winInner withinOO n hio] at h
      rcases Nat.lt_succ_iff_lt_or_eq.mp hj with hj' | rfl
      · exact ih h j hj'
      · exact hio
    | true =>
      exfalso
      cases hprev : parentSelect winInner withinOO n with
      | none =>
        rw [parentSelect_succ_new winInner withinOO n hio hprev] at h
        cases h
      | some q =>
        cases hOO : withinOO n q with
        | true =>
          rw [parentSelect_succ_beat winInner withinOO n q hio hprev hOO] at h
          cases h
        | false =>
          rw [parentSelect_succ_keep winInner withinOO n q hio hprev hOO] at h
          cases h

theorem parentSelect_is_candidate (winInner : Nat → Bool)
    (withinOO : Nat → Nat → Bool) :
    ∀ (n : Nat) (p : Nat), parentSelect winInner withinOO n = some p →
      p < n ∧ winInner p = true := by
  intro n
  induction n with
  | zero => intro p h; cases h
  | succ n ih =>
    intro p h
    cases hio : winInner n with
    | false =>
      rw [parentSelect_succ_skip winInner withinOO n hio] at h
      have := ih p h
      exact ⟨Nat.lt_succ_of_lt this.1, this.2⟩
    | true =>
      cases hprev : parentSelect winInner withinOO n with
      | none =>
        rw [parentSelect_succ_new winInner withinOO n hio hprev] at h
        obtain rfl : n = p := Option.some.inj h
        exact ⟨Nat.lt_succ_self n, hio⟩
      | some q =>
        cases hOO : withinOO n q with
        | true =>
          rw [parentSelect_succ_beat winInner withinOO n q hio hprev hOO] at h
          obtain rfl : n = p := Option.some.inj h
          exact ⟨Nat.lt_succ_self n, hio⟩
        | false =>
          rw [parentSelect_succ_keep winInner withinOO n q hio hprev hOO] at h
          obtain rfl : q = p := Option.some.inj h
          have := ih q hprev
          exact ⟨Nat.lt_succ_of_lt this.1, this.2⟩

theorem parentSelect_min (winInner : Nat → Bool) (withinOO : Nat → Nat → Bool) :
    ∀ (n : Nat) (p : Nat),
      (∀ i j, i < n → j < n → winInner i = true → winInner j = true → i ≠ j →
        withinOO i j = true ∨ withinOO j i = true) →
      (∀ i j k, i < n → j < n → k < n →
        withinOO i j = true → withinOO j k = true → withinOO i k = true) →
      parentSelect winInner withinOO n = some p →
      ∀ j, j < n → winInner j = true → j ≠ p → withinOO p j = true := by
  intro n
  induction n with
  | zero => intro p _ _ h; cases h
  | succ n ih =>
    intro p htot htrans h j hj hio hne
    have htot' : ∀ i j, i < n → j < n → winInner i = true → winInner j = true →
        i ≠ j → withinOO i j = true ∨ withinOO j i = true :=
      fun i j hi hj => htot i j (Nat.lt_succ_of_lt hi) (Nat.lt_succ_of_lt hj)
    have htrans' : ∀ i j k, i < n → j < n → k < n →
        withinOO i j = true → withinOO j k = true → withinOO i k = true :=
      fun i j k hi hj hk => htrans i j k (Nat.lt_succ_of_lt hi)
        (Nat.lt_succ_of_lt hj) (Nat.lt_succ_of_lt hk)
    cases hio_n : winInner n with
    | false =>
      rw [parentSelect_succ_skip winInner withinOO n hio_n] at h
      have hp := parentSelect_is_candidate winInner withinOO n p h
      rcases Nat.lt_succ_iff_lt_or_eq.mp hj with hj' | rfl
      · exact ih p htot' htrans' h j hj' hio hne
      · rw [hio_n] at hio
        cases hio
    | true =>
      cases hprev : parentSelect winInner withinOO n with
      | none =>
        rw [parentSelect_succ_new winInner withinOO n hio_n hprev] at h
        obtain rfl : n = p := Option.some.inj h
        rcases Nat.lt_succ_iff_lt_or_eq.mp hj with hj' | rfl
        · have := parentSelect_none winInner withinOO n hprev j hj'
          rw [this] at hio
          cases hio
        · exact absurd rfl hne
      | some q =>
        have hq := parentSelect_is_candidate winInner withinOO n q hprev
        cases hOO : withinOO n q with
        | true =>
          rw [parentSelect_succ_beat winInner withinOO n q hio_n hprev hOO] at h
          obtain rfl : n = p := Option.some.inj h
          rcases Nat.lt_succ_iff_lt_or_eq.mp hj with hj' | rfl
          · by_cases hjq : j = q
            · subst hjq
              exact hOO
            · have hqj := ih q htot' htrans' hprev j hj' hio hjq
              exact htrans n q j (Nat.lt_succ_self n) (Nat.lt_succ_of_lt hq.1)
                (Nat.lt_succ_of_lt hj') hOO hqj
          · exact absurd rfl hne
        | false =>
          rw [parentSelect_succ_keep winInner withinOO n q hio_n hprev hOO] at h
          obtain rfl : q = p := Option.some.inj h
          rcases Nat.lt_succ_iff_lt_or_eq.mp hj with hj' | rfl
          · exact ih q htot' htrans' hprev j hj' hio hne
          · rcases htot j q hj (Nat.lt_succ_of_lt hq.1) hio hq.2
              (fun hc => by omega) with hc | hc
            · rw [hc] at hOO
              cases hOO
            · exact hc

theorem mem_getD_set (buckets : List (List WayID)) (q p : Nat) (v : List WayID)
    (w : WayID) (h : w ∈ (buckets.set q v).getD p []) :
    (q = p ∧ w ∈ v) ∨ w ∈ buckets.getD p [] := by
  by_cases hlt : p < buckets.length
  · rw [List.getD_eq_getElem _ _ (by simpa using hlt)] at h
    by_cases hpq : q = p
    · subst hpq
      rw [List.getElem_set_self] at h
      exact Or.inl ⟨rfl, h⟩
    · rw [List.getElem_set_of_ne hpq] at h
      rw [List.getD_eq_getElem _ _ hlt]
      exact Or.inr h
  · rw [List.getD_eq_default _ _ (by simpa using Nat.le_of_not_lt hlt)] at h
    cases h

theorem getD_replicate_nil (n j : Nat) :
    (List.replicate n ([] : List WayID)).getD j [] = [] := by
  by_cases h : j < n
  · rw [List.getD_eq_getElem _ _ (by simpa using h)]
    simp
  · exact List.getD_eq_default _ _ (by simpa using Nat.le_of_not_lt h)

theorem collect_fold_mem (winInner : Nat → Nat → Bool) (withinOO : Nat → Nat → Bool)
    (numOuter : Nat) (innerVecs : List (List WayID)) :
    ∀ (l : List Nat) (buckets : List (List WayID)) (p : Nat) (w : WayID),
      w ∈ (l.foldl (fun buckets k =>
        match parentSelect (winInner k) withinOO numOuter with
        | none => buckets
        | some q =>
          buckets.set q
            ((buckets.getD q []) ++ [PSEUDO_WAY_INNER_MARK] ++ innerVecs.getD k []))
        buckets).getD p [] →
      w ∈ buckets.getD p [] ∨ w = PSEUDO_WAY_INNER_MARK ∨
        ∃ k ∈ l, parentSelect (winInner k) withinOO numOuter ≠ none ∧
          w ∈ innerVecs.getD k [] := by
  intro l
  induction l with
  | nil => intro buckets p w h; exact Or.inl h
  | cons x xs ih =>
    intro buckets p w h
    rw [List.foldl_cons] at h
    rcases ih _ p w h with hstep | hmark | ⟨k, hk, hps, hw⟩
    · cases hps : parentSelect (winInner x) withinOO numOuter with
      | none => rw [hps] at hstep; exact Or.inl hstep
      | some q =>
        rw [hps] at hstep
        dsimp only at hstep
        rcases mem_getD_set buckets q p _ w hstep with ⟨rfl, hnew⟩ | hold
        · rcases List.mem_append.mp hnew with h1 | h2
          · rcases List.mem_append.mp h1 with h3 | h4
            · exact Or.inl h3
            · exact Or.inr (Or.inl (List.mem_singleton.mp h4))
          · exact Or.inr (Or.inr ⟨x, by simp, by simp [hps], h2⟩)
        · exact Or.inl hold
    · exact Or.inr (Or.inl hmark)
    · exact Or.inr (Or.inr ⟨k, by simp [hk], hps, hw⟩)

theorem flatten_fold_mem (outerVecs innerFor : List (List WayID)) :
    ∀ (l : List Nat) (acc : List WayID) (w : WayID),
      w ∈ (l.foldl (fun result j =>
        (if j > 0 then result ++ [PSEUDO_WAY_OUTER_MARK] else result)
          ++ outerVecs.getD j [] ++ innerFor.getD j []) acc) →
      w ∈ acc ∨ w = PSEUDO_WAY_OUTER_MARK ∨
        ∃ j ∈ l, w ∈ outerVecs.getD j [] ∨ w ∈ innerFor.getD j [] := by
  intro l
  induction l with
  | nil => intro acc w h; exact Or.inl h
  | cons x xs ih =>
    intro acc w h
    rw [List.foldl_cons] at h
    rcases ih _ w h with hacc | hmark | ⟨j, hj, hw⟩
    · rcases List.mem_append.mp hacc with h1 | h2
      · rcases List.mem_append.mp h1 with h3 | h4
        · by_cases hx : x > 0
          · rw [if_pos hx] at h3
            rcases List.mem_append.mp h3 with h5 | h6
            · exact Or.inl h5
            · exact Or.inr (Or.inl (List.mem_singleton.mp h6))
          · rw [if_neg hx] at h3
            exact Or.inl h3
        · exact Or.inr (Or.inr ⟨x, by simp, Or.inl h4⟩)
      · exact Or.inr (Or.inr ⟨x, by simp, Or.inr h2⟩)
    · exact Or.inr (Or.inl hmark)
    · exact Or.inr (Or.inr ⟨j, by simp [hj], hw⟩)

/-- Every element of the flattened relation encoding is a mark, an element
of some outer ring's way vector, or an element of the way vector of an inner
ring that found a parent. -/
theorem correctRelParenting_mem (winInner : Nat → Nat → Bool)
    (withinOO : Nat → Nat → Bool) (outerVecs innerVecs : List (List WayID))
    (w : WayID) (h : w ∈ correctRelParenting winInner withinOO outerVecs innerVecs) :
    w = PSEUDO_WAY_OUTER_MARK ∨ w = PSEUDO_WAY_INNER_MARK ∨
      (∃ j, w ∈ outerVecs.getD j []) ∨
      (∃ k, parentSelect (winInner k) withinOO outerVecs.length ≠ none ∧
        w ∈ innerVecs.getD k []) := by
  unfold correctRelParenting flattenResult at h
  rcases flatten_fold_mem outerVecs _ _ [] w h with hacc | hmark | ⟨j, _, hw | hw⟩
  · cases hacc
  · exact Or.inl hmark
  · exact Or.inr (Or.inr (Or.inl ⟨j, hw⟩))
  · unfold collectInners at hw
    rcases collect_fold_mem winInner withinOO outerVecs.length innerVecs _ _ j w hw
      with hinit | hmark | ⟨k, _, hps, hw'⟩
    · rw [getD_replicate_nil] at hinit
      cases hinit
    · exact Or.inr (Or.inl hmark)
    · exact Or.inr (Or.inr (Or.inr ⟨k, hps, hw'⟩))

end OSMStore

--
-- Parent-zoom tile remapping of the emitter, tilemaker.cpp:674-678.
--

/-- The packed tile ID convention `(tileX << 16) | tileY` (the phase-C code
builds it as `tileX * 65536 + tileY`, the same number for a 16-bit Y). -/
def packTile (x y : Nat) : Nat := (x <<< 16) ||| y

/-- The parent-tile remap of the emitter (tilemaker.cpp:676-678):
`tilex = (index >> 16) / pow(2, baseZoom - zoom)`,
`tiley = (index & 65535) / pow(2, baseZoom - zoom)`,
`newIndex = (tilex << 16) + tiley`.  The double-precision `pow` and the
mixed division are exact here (an integer below 2^16 divided by a power of
two has an exact binary representation, and the conversion back to `uint`
truncates), so the computation is Nat division. -/
def parentTileIndex (index : Nat) (d : Nat) : Nat :=
  let tilex := (index >>> 16) / 2 ^ d
  let tiley := (index &&& 65535) / 2 ^ d
  (tilex <<< 16) + tiley

theorem packTile_eq (x y : Nat) (hy : y < 2 ^ 16) : packTile x y = 2 ^ 16 * x + y := by
  unfold packTile
  apply Nat.eq_of_testBit_eq
  intro i
  rw [Nat.testBit_lor, Nat.testBit_shiftLeft, Nat.testBit_mul_pow_two_add x hy i]
  by_cases hi : i < 16
  · have h2 : ¬(16 ≤ i) := by omega
    simp [hi, h2]
  · have h16 : 16 ≤ i := by omega
    have hyf : y.testBit i = false :=
      Nat.testBit_lt_two_pow (lt_of_lt_of_le hy (Nat.pow_le_pow_right (by norm_num) h16))
    simp [hi, h16, hyf]

theorem parentTileIndex_pack (x y d : Nat) (hy : y < 2 ^ 16) :
    parentTileIndex (packTile x y) d = packTile (x / 2 ^ d) (y / 2 ^ d) := by
  have hyd : y / 2 ^ d < 2 ^ 16 := lt_of_le_of_lt (Nat.div_le_self _ _) hy
  rw [packTile_eq x y hy, packTile_eq (x / 2 ^ d) (y / 2 ^ d) hyd]
  have h1 : (2 ^ 16 * x + y) >>> 16 = x := by
    rw [Nat.shiftRight_eq_div_pow, Nat.mul_add_div (by norm_num), Nat.div_eq_of_lt hy]
    omega
  have h2 : (2 ^ 16 * x + y) &&& 65535 = y := by
    have h65 : (65535 : Nat) = 2 ^ 16 - 1 := by norm_num
    rw [h65, Nat.and_pow_two_sub_one_eq_mod, Nat.mul_add_mod]
    exact Nat.mod_eq_of_lt hy
  unfold parentTileIndex
  dsimp only
  rw [h1, h2, Nat.shiftLeft_eq]
  ring

--
-- Lemmas about the sorted-array stores.
--

namespace KeyValArrays

variable {V : Type}

theorem chain_le_getLast {keys : List Nat} (hs : List.Chain' (fun a b => a < b) keys)
    {kb : Nat} (hlast : keys.getLast? = some kb) : ∀ x ∈ keys, x ≤ kb := by
  induction keys with
  | nil => intro x hx; cases hx
  | cons a rest ih =>
    intro x hx
    cases rest with
    | nil =>
      simp only [List.getLast?_singleton, Option.some_inj] at hlast
      rcases List.mem_singleton.mp hx with rfl
      omega
    | cons b rest' =>
      rw [List.getLast?_cons_cons] at hlast
      have hs' := (List.chain'_cons.mp hs).2
      have hab := (List.chain'_cons.mp hs).1
      rcases List.mem_cons.mp hx with rfl | hx'
      · have hb := ih hs' hlast b (List.mem_cons_self b rest')
        omega
      · exact ih hs' hlast x hx'

theorem takeWhile_append_all {p : Nat → Bool} {l1 : List Nat} (l2 : List Nat)
    (h : ∀ x ∈ l1, p x = true) :
    (l1 ++ l2).takeWhile p = l1 ++ l2.takeWhile p := by
  induction l1 with
  | nil => simp
  | cons a rest ih =>
    rw [List.cons_append, List.takeWhile_cons, h a (List.mem_cons_self a rest)]
    simp only [if_true]
    rw [ih (fun x hx => h x (List.mem_cons_of_mem a hx))]
    simp

theorem lowerBoundIdx_append_self (keys : List Nat) (k : Nat)
    (h : ∀ x ∈ keys, x < k) : lowerBoundIdx (keys ++ [k]) k = keys.length := by
  unfold lowerBoundIdx
  rw [takeWhile_append_all [k] (fun x hx => by simp [h x hx])]
  simp

theorem insert_back_fresh (s : KeyValArrays V) (k : Nat) (v : V)
    (h : ∀ x ∈ s.keys, x < k) :
    s.insert_back k v = some ⟨s.keys ++ [k], s.values ++ [v]⟩ := by
  unfold insert_back
  cases hlast : s.keys.getLast? with
  | none => rfl
  | some kb =>
    have hkb : kb ∈ s.keys := List.mem_of_mem_getLast? (by rw [hlast]; rfl)
    dsimp only
    rw [if_neg (by have := h kb hkb; omega)]

theorem at?_append_self (keys : List Nat) (values : List V) (k : Nat) (v : V)
    (h : ∀ x ∈ keys, x < k) (hlen : keys.length = values.length) :
    (⟨keys ++ [k], values ++ [v]⟩ : KeyValArrays V).at? k = some v := by
  unfold at?
  dsimp only
  rw [lowerBoundIdx_append_self keys k h, List.getElem?_concat_length]
  dsimp only
  rw [if_pos rfl, hlen, List.getElem?_concat_length]

theorem at?_mem (s : KeyValArrays V) (k : Nat) (w : V) (h : s.at? k = some w) :
    k ∈ s.keys := by
  unfold at? at h
  dsimp only at h
  cases hget : s.keys[lowerBoundIdx s.keys k]? with
  | none => rw [hget] at h; cases h
  | some k' =>
    rw [hget] at h
    dsimp only at h
    by_cases hk : k' = k
    · subst hk
      exact List.getElem?_mem hget
    · rw [if_neg hk] at h
      cases h

theorem insert_back_some_inv (s : KeyValArrays V) (k : Nat) (v : V)
    (s' : KeyValArrays V) (hs : List.Chain' (fun a b => a < b) s.keys)
    (h : s.insert_back k v = some s') :
    (∀ x ∈ s.keys, x < k) ∧ s' = ⟨s.keys ++ [k], s.values ++ [v]⟩ := by
  unfold insert_back at h
  cases hlast : s.keys.getLast? with
  | none =>
    rw [hlast] at h
    have hnil : s.keys = [] := List.getLast?_eq_none_iff.mp hlast
    refine ⟨?hv, (Option.some_inj.mp h).symm⟩
    rw [hnil]
    intro x hx
    cases hx
  | some kb =>
    rw [hlast] at h
    dsimp only at h
    by_cases hk : k ≤ kb
    · rw [if_pos hk] at h; cases h
    · rw [if_neg hk] at h
      refine ⟨?hall, (Option.some_inj.mp h).symm⟩
      intro x hx
      have := chain_le_getLast hs hlast x hx
      omega

theorem insert_back_dup (s : KeyValArrays V) (k : Nat) (v : V)
    (hs : List.Chain' (fun a b => a < b) s.keys) (hmem : k ∈ s.keys) :
    s.insert_back k v = none := by
  unfold insert_back
  have hne : s.keys ≠ [] := List.ne_nil_of_mem hmem
  cases hlast : s.keys.getLast? with
  | none => exact absurd (List.getLast?_eq_none_iff.mp hlast) hne
  | some kb =>
    dsimp only
    rw [if_pos (chain_le_getLast hs hlast k hmem)]

end KeyValArrays

namespace IndexedKeyValArrays

variable {V : Type}

/-- The structural invariant of IndexedKeyValArrays: `indexes` is a
non-decreasing offset table with first entry 0, last entry `values.size()`
and one more entry than `keys`, and `keys` is strictly increasing. -/
def Inv (s : IndexedKeyValArrays V) : Prop :=
  s.indexes ≠ [] ∧ s.indexes.head? = some 0 ∧
    s.indexes.getLast? = some s.values.length ∧
    s.indexes.length = s.keys.length + 1 ∧
    List.Chain' (fun a b => a ≤ b) s.indexes ∧
    List.Chain' (fun a b => a < b) s.keys

theorem inv_init : Inv (init : IndexedKeyValArrays V) := by
  refine ⟨by simp [init], rfl, rfl, rfl, ?c1, ?c2⟩ <;> simp [init]

theorem insert_back_fresh_idx (s : IndexedKeyValArrays V) (k : Nat) (vs : List V)
    (h : ∀ x ∈ s.keys, x < k) :
    s.insert_back k vs = some
      ⟨s.keys ++ [k], s.indexes ++ [s.values.length + vs.length], s.values ++ vs⟩ := by
  unfold insert_back
  cases hlast : s.keys.getLast? with
  | none => rfl
  | some kb =>
    have hkb : kb ∈ s.keys := List.mem_of_mem_getLast? (by rw [hlast]; rfl)
    dsimp only
    rw [if_neg (by have := h kb hkb; omega)]

theorem insert_back_dup_idx (s : IndexedKeyValArrays V) (k : Nat) (vs : List V)
    (hs : List.Chain' (fun a b => a < b) s.keys) (hmem : k ∈ s.keys) :
    s.insert_back k vs = none := by
  unfold insert_back
  have hne : s.keys ≠ [] := List.ne_nil_of_mem hmem
  cases hlast : s.keys.getLast? with
  | none => exact absurd (List.getLast?_eq_none_iff.mp hlast) hne
  | some kb =>
    dsimp only
    rw [if_pos (KeyValArrays.chain_le_getLast hs hlast k hmem)]

theorem insert_back_some_inv_idx (s : IndexedKeyValArrays V) (k : Nat) (vs : List V)
    (s' : IndexedKeyValArrays V) (hs : List.Chain' (fun a b => a < b) s.keys)
    (h : s.insert_back k vs = some s') :
    (∀ x ∈ s.keys, x < k) ∧
      s' = ⟨s.keys ++ [k], s.indexes ++ [s.values.length + vs.length],
        s.values ++ vs⟩ := by
  unfold insert_back at h
  cases hlast : s.keys.getLast? with
  | none =>
    rw [hlast] at h
    have hnil : s.keys = [] := List.getLast?_eq_none_iff.mp hlast
    refine ⟨?hv, (Option.some_inj.mp h).symm⟩
    rw [hnil]
    intro x hx
    cases hx
  | some kb =>
    rw [hlast] at h
    dsimp only at h
    by_cases hk : k ≤ kb
    · rw [if_pos hk] at h; cases h
    · rw [if_neg hk] at h
      refine ⟨?hall, (Option.some_inj.mp h).symm⟩
      intro x hx
      have := KeyValArrays.chain_le_getLast hs hlast x hx
      omega

theorem at?_mem_idx (s : IndexedKeyValArrays V) (k : Nat) (ws : List V)
    (h : s.at? k = some ws) : k ∈ s.keys := by
  unfold at? at h
  cases har : s.atRange? k with
  | none => rw [har] at h; cases h
  | some r =>
    unfold atRange? at har
    dsimp only at har
    cases hget : s.keys[KeyValArrays.lowerBoundIdx s.keys k]? with
    | none => rw [hget] at har; cases har
    | some k' =>
      rw [hget] at har
      dsimp only at har
      by_cases hk : k' = k
      · subst hk
        exact List.getElem?_mem hget
      · rw [if_neg hk] at har
        cases har

theorem inv_insert_back (s : IndexedKeyValArrays V) (k : Nat) (vs : List V)
    (s' : IndexedKeyValArrays V) (hinv : Inv s)
    (h : s.insert_back k vs = some s') : Inv s' := by
  obtain ⟨hne, hhead, hlast, hlen, hmono, hkeys⟩ := hinv
  have hshape : s' = ⟨s.keys ++ [k], s.indexes ++ [s.values.length + vs.length],
      s.values ++ vs⟩ ∧ (∀ kb ∈ s.keys.getLast?, kb < k) := by
    unfold insert_back at h
    cases hlast' : s.keys.getLast? with
    | none =>
      rw [hlast'] at h
      exact ⟨(Option.some_inj.mp h).symm, by simp⟩
    | some kb =>
      rw [hlast'] at h
      dsimp only at h
      by_cases hk : k ≤ kb
      · rw [if_pos hk] at h; cases h
      · rw [if_neg hk] at h
        refine ⟨(Option.some_inj.mp h).symm, ?hx⟩
        intro kb' hkb'
        simp only [Option.mem_def, Option.some_inj] at hkb'
        omega
  obtain ⟨rfl, hk⟩ := hshape
  refine ⟨by simp, ?hh, ?hl, ?hlen, ?hm, ?hk⟩
  · rw [List.head?_append_of_ne_nil _ hne]
    exact hhead
  · rw [List.getLast?_concat]
    simp [List.length_append]
  · simp only [List.length_append, List.length_singleton]
    omega
  · rw [List.chain'_append]
    refine ⟨hmono, List.chain'_singleton _, ?hj⟩
    intro x hx y hy
    simp only [List.head?_cons, Option.mem_def, Option.some_inj] at hy
    subst hy
    rw [hlast] at hx
    simp only [Option.mem_def, Option.some_inj] at hx
    omega
  · rw [List.chain'_append]
    refine ⟨hkeys, List.chain'_singleton _, ?hj2⟩
    intro x hx y hy
    simp only [List.head?_cons, Option.mem_def, Option.some_inj] at hy
    subst hy
    exact hk x hx

theorem inv_clear (s : IndexedKeyValArrays V) : Inv (s.clear) := inv_init

theorem inv_atRange (s : IndexedKeyValArrays V) (k : Nat) (b e : Nat)
    (hinv : Inv s) (h : s.atRange? k = some (b, e)) :
    b ≤ e ∧ e ≤ s.values.length := by
  obtain ⟨hne, hhead, hlast, hlen, hmono, hkeys⟩ := hinv
  unfold atRange? at h
  dsimp only at h
  cases hget : s.keys[KeyValArrays.lowerBoundIdx s.keys k]? with
  | none => rw [hget] at h; cases h
  | some k' =>
    rw [hget] at h
    dsimp only at h
    by_cases hk : k' = k
    · rw [if_pos hk] at h
      have hrank : KeyValArrays.lowerBoundIdx s.keys k < s.keys.length := by
        by_contra hc
        rw [List.getElem?_eq_none (Nat.le_of_not_lt hc)] at hget
        cases hget
      set rank := KeyValArrays.lowerBoundIdx s.keys k with hrankdef
      have hr1 : rank + 1 < s.indexes.length := by omega
      have hr0 : rank < s.indexes.length := by omega
      obtain ⟨rfl, rfl⟩ : b = s.indexes.getD rank 0 ∧ e = s.indexes.getD (rank + 1) 0 := by
        have := Option.some_inj.mp h
        exact ⟨congrArg Prod.fst this.symm, congrArg Prod.snd this.symm⟩
      rw [List.getD_eq_getElem _ _ hr0, List.getD_eq_getElem _ _ hr1]
      have hpair := List.chain'_iff_get.mp hmono rank (by omega)
      constructor
      · simpa using hpair
      · have hpw : List.Pairwise (fun a b => a ≤ b) s.indexes :=
          List.chain'_iff_pairwise.mp hmono
        have hlast' : s.indexes.getLast hne = s.values.length := by
          rw [List.getLast?_eq_getLast_of_ne_nil hne] at hlast
          exact Option.some_inj.mp hlast
        by_cases hcmp : rank + 1 = s.indexes.length - 1
        · rw [← hlast', List.getLast_eq_getElem]
          exact le_of_eq (by congr 1)
        · have hlt : rank + 1 < s.indexes.length - 1 := by omega
          have := List.pairwise_iff_getElem.mp hpw (rank + 1) (s.indexes.length - 1)
            (by omega) (by omega) hlt
          rw [← hlast', List.getLast_eq_getElem]
          exact this
    · rw [if_neg hk] at h
      cases h

theorem atRange_append_self (keys : List Nat) (indexes : List Nat) (values : List V)
    (k : Nat) (vs : List V) (h : ∀ x ∈ keys, x < k)
    (hlen : indexes.length = keys.length + 1)
    (hlast : indexes.getLast? = some values.length) :
    (⟨keys ++ [k], indexes ++ [values.length + vs.length], values ++ vs⟩ :
        IndexedKeyValArrays V).at? k = some vs := by
  unfold at? atRange?
  dsimp only
  rw [KeyValArrays.lowerBoundIdx_append_self keys k h, List.getElem?_concat_length]
  dsimp only
  rw [if_pos rfl]
  have hne : indexes ≠ [] := by
    intro hc
    rw [hc] at hlen
    simp at hlen
  have hklt : keys.length < indexes.length := by omega
  have hidx1 : (indexes ++ [values.length + vs.length]).getD keys.length 0
      = values.length := by
    rw [List.getD_eq_getElem _ _ (by simp [List.length_append]; omega),
      List.getElem_append_left hklt]
    have h9 : indexes[keys.length]? = some values.length := by
      rw [show keys.length = indexes.length - 1 from by omega, ← List.getLast?_eq_getElem?]
      exact hlast
    rw [List.getElem?_eq_getElem hklt] at h9
    exact Option.some_inj.mp h9
  have hidx2 : (indexes ++ [values.length + vs.length]).getD (keys.length + 1) 0
      = values.length + vs.length := by
    have hkl : keys.length + 1 = indexes.length := by omega
    rw [hkl, List.getD_eq_getElem _ _ (by simp)]
    simp
  rw [hidx1, hidx2]
  simp only [Option.map_some']
  rw [List.drop_left]
  congr 1
  rw [Nat.add_sub_cancel_left]
  exact List.take_length vs

end IndexedKeyValArrays

--
-- Sample data for concrete witnesses and counterexamples.
--

/-- A small node store: the four corners of a unit-scale square for way 10,
a second distant square for way 11. -/
def sampleNodes : NodeStore := ⟨[
  (1, ⟨0, 0⟩), (2, ⟨0, 10⟩), (3, ⟨10, 10⟩), (4, ⟨10, 0⟩),
  (5, ⟨100, 100⟩), (6, ⟨100, 110⟩), (7, ⟨110, 110⟩), (8, ⟨110, 100⟩)]⟩

/-- Two closed square ways over `sampleNodes`. -/
def sampleWays : WayStore := ⟨[(10, [1, 2, 3, 4, 1]), (11, [5, 6, 7, 8, 5])]⟩

/-- The sample OSM store. -/
def sampleStore : OSMStore := ⟨sampleNodes, sampleWays, ⟨[]⟩⟩

--
-- C4.
--

/-- C4 counterexample: with the sink already ending at the point of node 1
and the node sequence `[2, 1]` filled with `reverse = true`, the pushed pair
is reversed in place and its new first element equals the previous last sink
point, so the sink ends with two adjacent equal points `(0, 0), (0, 0)` — a
zero-length edge.  (This is exactly the situation of a REVERSE_MARK way that
connects to the previous segment's endpoint.) -/
theorem C4_adjacent_dup_counterexample :
    OSMStore.fillPoints sampleNodes [((0 : Int), (0 : Int))] [2, 1] true =
        some [(0, 0), (0, 0), (10, 0)] ∧
      ¬ List.Chain' (fun p q : Point => p ≠ q)
        [((0 : Int), (0 : Int)), (0, 0), (10, 0)] := by
  constructor
  · decide
  · intro h
    exact (List.chain'_cons.mp h).1 rfl

/-- C4 (amended): with `reverse = false` a fillPoints call keeps the sink
free of adjacent duplicates (each translated point is skipped when equal to
the point most recently at the end of the sink, including points already
present before the call); with `reverse = true` the pushed block itself
contains no adjacent duplicates — and a call on an empty sink leaves none —
but the junction between the reversed block and a non-empty prior sink can
be an equal pair, as the counterexample shows. -/
theorem C4_fillPoints_dedup_amended :
    (∀ (nodes : NodeStore) (sink : List Point) (nl : List NodeID) (r : List Point),
      List.Chain' (fun p q : Point => p ≠ q) sink →
      OSMStore.fillPoints nodes sink nl false = some r →
      List.Chain' (fun p q : Point => p ≠ q) r) ∧
    (∀ (nodes : NodeStore) (sink : List Point) (nl : List NodeID) (r : List Point),
      OSMStore.fillPoints nodes sink nl true = some r →
      List.Chain' (fun p q : Point => p ≠ q) (r.drop sink.length)) ∧
    (∀ (nodes : NodeStore) (nl : List NodeID) (r : List Point),
      OSMStore.fillPoints nodes [] nl true = some r →
      List.Chain' (fun p q : Point => p ≠ q) r) := by
  have hpush : ∀ (nodes : NodeStore) (nl : List NodeID) (lastP : Option Point)
      (l : List Point) (c : Nat),
      OSMStore.fillAppended nodes lastP nl = some (l, c) →
      List.Chain' (fun p q : Point => p ≠ q) l := by
    intro nodes nl lastP l c h
    exact OSMStore.fillPush_chain nodes nl lastP [] 0 l c h List.chain'_nil
      (fun hc => absurd rfl hc)
  have hrev : ∀ (nodes : NodeStore) (sink : List Point) (nl : List NodeID)
      (r : List Point),
      OSMStore.fillPoints nodes sink nl true = some r →
      List.Chain' (fun p q : Point => p ≠ q) (r.drop sink.length) := by
    intro nodes sink nl r h
    rw [OSMStore.fillPoints_eq] at h
    cases hfa : OSMStore.fillAppended nodes sink.getLast? nl with
    | none => rw [hfa] at h; cases h
    | some x =>
      rw [hfa] at h
      simp only [Option.map_some', Option.some_inj] at h
      subst h
      simp only [if_pos rfl, List.drop_left]
      refine List.chain'_reverse.mpr ?hflip
      exact (hpush nodes nl sink.getLast? x.1 x.2 (by rw [hfa])).imp
        (fun a b hab hba => hab hba.symm)
  refine ⟨?hfwd, hrev, ?hempty⟩
  · intro nodes sink nl r hch h
    unfold OSMStore.fillPoints at h
    cases hfp : OSMStore.fillPush nodes nl sink.getLast? sink 0 with
    | none => rw [hfp] at h; cases h
    | some x =>
      rw [hfp] at h
      dsimp only at h
      simp only [Bool.false_eq_true, if_false, Option.some_inj] at h
      subst h
      exact OSMStore.fillPush_chain nodes nl sink.getLast? sink 0 x.1 x.2
        (by rw [hfp]) hch (fun _ => rfl)
  · intro nodes nl r h
    have := hrev nodes [] nl r h
    simpa using this

/-- C4 amended-theorem witness at concrete inputs. -/
theorem C4_fillPoints_dedup_amended_witness :
    List.Chain' (fun p q : Point => p ≠ q) [((0 : Int), (0 : Int)), (10, 0)] ∧
      List.Chain' (fun p q : Point => p ≠ q)
        ([((0 : Int), (0 : Int)), (0, 0), (10, 0)].drop 1) ∧
      List.Chain' (fun p q : Point => p ≠ q) [((0 : Int), (10 : Int)), (10, 0)] := by
  refine ⟨?h1, ?h2, ?h3⟩
  · exact C4_fillPoints_dedup_amended.1 sampleNodes [] [1, 2] [(0, 0), (10, 0)]
      (by decide) (by decide)
  · exact C4_fillPoints_dedup_amended.2.1 sampleNodes [(0, 0)] [2, 1]
      [(0, 0), (0, 0), (10, 0)] (by decide)
  · exact C4_fillPoints_dedup_amended.2.2 sampleNodes [2, 4] [(0, 10), (10, 0)]
      (by decide)

--
-- C5.
--

/-- C5: assembling `REVERSE_MARK w` into a sink appends exactly the reverse
of what assembling `w` alone appends, for the same prior sink contents; the
prior sink itself is identical in both assemblies. -/
theorem C5_reverse_mark_assembly :
    ∀ (st : OSMStore) (sink rf rr : Ring) (w : WayID),
      OSMStore.ringFill st [PSEUDO_WAY_REVERSE_MARK, w] sink = some (rr, []) →
      OSMStore.ringFill st [w] sink = some (rf, []) →
      rr.take sink.length = rf.take sink.length ∧
        rr.drop sink.length = (rf.drop sink.length).reverse := by
  intro st sink rf rr w h1 h2
  rw [OSMStore.ringFill_cons, if_neg (by decide), if_pos rfl] at h1
  dsimp only at h1
  cases hat : st.ways.at? w with
  | none => rw [hat] at h1; cases h1
  | some nl =>
    rw [hat] at h1
    dsimp only at h1
    by_cases hmark : w = PSEUDO_WAY_OUTER_MARK ∨ w = PSEUDO_WAY_INNER_MARK
    · rw [OSMStore.ringFill_cons, if_pos hmark] at h2
      cases Option.some_inj.mp h2
    · rw [OSMStore.ringFill_cons, if_neg hmark] at h2
      by_cases hrev : w = PSEUDO_WAY_REVERSE_MARK
      · rw [if_pos hrev] at h2
        cases h2
      · rw [if_neg hrev, hat] at h2
        dsimp only at h2
        rw [OSMStore.fillPoints_eq] at h1 h2
        cases hfa : OSMStore.fillAppended st.nodes sink.getLast? nl with
        | none => rw [hfa] at h1; cases h1
        | some x =>
          rw [hfa] at h1 h2
          simp only [Option.map_some'] at h1 h2
          rw [OSMStore.ringFill_nil] at h1 h2
          obtain ⟨hrr, -⟩ := Prod.mk.injEq .. ▸ Option.some_inj.mp h1
          obtain ⟨hrf, -⟩ := Prod.mk.injEq .. ▸ Option.some_inj.mp h2
          subst hrr hrf
          simp only [if_pos rfl, Bool.false_eq_true, if_false]
          rw [List.take_left, List.take_left, List.drop_left, List.drop_left]
          exact ⟨rfl, rfl⟩

/-- C5 witness: way 11 reversed against way 11 forward over the sample
store, with a non-empty sink. -/
theorem C5_reverse_mark_assembly_witness :
    ([((0 : Int), (0 : Int)), (100, 100), (100, 110), (110, 110), (110, 100),
        (100, 100)] : Ring).take 1 =
      ([((0 : Int), (0 : Int)), (100, 100), (110, 100), (110, 110), (100, 110),
        (100, 100)] : Ring).take 1 ∧
    ([((0 : Int), (0 : Int)), (100, 100), (100, 110), (110, 110), (110, 100),
        (100, 100)] : Ring).drop 1 =
      (([((0 : Int), (0 : Int)), (100, 100), (110, 100), (110, 110), (100, 110),
        (100, 100)] : Ring).drop 1).reverse :=
  C5_reverse_mark_assembly sampleStore [(0, 0)]
    [(0, 0), (100, 100), (110, 100), (110, 110), (100, 110), (100, 100)]
    [(0, 0), (100, 100), (100, 110), (110, 110), (110, 100), (100, 100)]
    11 (by decide) (by decide)

--
-- C6.
--

/-- C6: a `reverse = true` fillPoints call leaves every point that was in
the sink before the call unchanged in value and position, and appends
exactly the `k = nodeCnt` points the call pushed, reversed in place — where
the pushed points are those of the corresponding `reverse = false` call. -/
theorem C6_fillPoints_reverse_frame :
    ∀ (nodes : NodeStore) (sink : List Point) (nl : List NodeID)
      (l : List Point) (c : Nat),
      OSMStore.fillAppended nodes sink.getLast? nl = some (l, c) →
      OSMStore.fillPoints nodes sink nl true = some (sink ++ l.reverse) ∧
        OSMStore.fillPoints nodes sink nl false = some (sink ++ l) ∧
        l.length = c := by
  intro nodes sink nl l c h
  refine ⟨?ht, ?hf, OSMStore.fillAppended_length nodes nl sink.getLast? l c h⟩
  · rw [OSMStore.fillPoints_eq, h]
    rfl
  · rw [OSMStore.fillPoints_eq, h]
    rfl

/-- C6 witness over the sample store: a two-point push onto a one-point
sink. -/
theorem C6_fillPoints_reverse_frame_witness :
    OSMStore.fillPoints sampleNodes [((0 : Int), (0 : Int))] [2, 3] true =
        some ([((0 : Int), (0 : Int))] ++ [((10 : Int), (0 : Int)), (10, 10)].reverse) ∧
      OSMStore.fillPoints sampleNodes [((0 : Int), (0 : Int))] [2, 3] false =
        some ([((0 : Int), (0 : Int))] ++ [((10 : Int), (0 : Int)), (10, 10)]) ∧
      ([((10 : Int), (0 : Int)), (10, 10)] : List Point).length = 2 :=
  C6_fillPoints_reverse_frame sampleNodes [(0, 0)] [2, 3] [(10, 0), (10, 10)] 2
    (by decide)

--
-- C8.
--

/-- C8: deriving the parent tile at a coarser zoom by the emitter's remap
(divide X and Y by `2^(baseZoom - z)`) commutes with the `(x << 16) | y`
packing convention. -/
theorem C8_parent_tile_packing :
    ∀ (x y z baseZoom : Nat), x < 2 ^ 16 → y < 2 ^ 16 → z < baseZoom →
      parentTileIndex (packTile x y) (baseZoom - z) =
        packTile (x >>> (baseZoom - z)) (y >>> (baseZoom - z)) := by
  intro x y z baseZoom _ hy _
  rw [Nat.shiftRight_eq_div_pow, Nat.shiftRight_eq_div_pow]
  exact parentTileIndex_pack x y (baseZoom - z) hy

/-- C8 witness: tile (5, 7) at base zoom 14 seen from zoom 12. -/
theorem C8_parent_tile_packing_witness :
    parentTileIndex (packTile 5 7) (14 - 12) = packTile (5 >>> (14 - 12)) (7 >>> (14 - 12)) :=
  C8_parent_tile_packing 5 7 12 14 (by decide) (by decide) (by decide)

--
-- C7.
--

/-- C7: the greedy ring-construction walk terminates.  Each iteration either
closes the ring (the scan falls back to `startIdx`) or selects — and the
next iteration marks — a previously unconsumed way, so the number of
unconsumed ways bounds the iterations; in particular fuel equal to the bag
size always suffices, making the assembly a total function. -/
theorem C7_ring_walk_terminates :
    (∀ (wayVec : List WayID) (endCoords : List (LatpLon × LatpLon))
        (startCoord : LatpLon) (startIdx fuel nextIdx : Nat) (reverse : Bool)
        (matched : List Bool) (acc : List WayID),
      matched.count false ≤ fuel →
      matched.getD nextIdx true = false →
      (OSMStore.ringWalk wayVec endCoords startCoord startIdx fuel nextIdx
        reverse matched acc).isSome) ∧
    (∀ (wayVec : List WayID) (endCoords : List (LatpLon × LatpLon))
        (startCoord : LatpLon) (startIdx : Nat) (matched : List Bool)
        (acc : List WayID),
      matched.length = wayVec.length →
      matched.getD startIdx true = false →
      (OSMStore.ringWalk wayVec endCoords startCoord startIdx wayVec.length
        startIdx false matched acc).isSome) := by
  refine ⟨?hgen, ?hbag⟩
  · intro wayVec endCoords startCoord startIdx fuel nextIdx reverse matched acc hc hn
    exact OSMStore.ringWalk_total wayVec endCoords startCoord startIdx fuel nextIdx
      reverse matched acc hc hn
  · intro wayVec endCoords startCoord startIdx matched acc hlen hn
    refine OSMStore.ringWalk_total wayVec endCoords startCoord startIdx _ _ _ _ _
      ?hc hn
    calc matched.count false ≤ matched.length := List.count_le_length _ _
    _ = wayVec.length := hlen

/-- C7 witness: a two-way bag whose walk closes within two iterations. -/
theorem C7_ring_walk_terminates_witness :
    (OSMStore.ringWalk [100, 101] [(⟨0, 0⟩, ⟨0, 10⟩), (⟨0, 10⟩, ⟨0, 0⟩)]
        ⟨0, 0⟩ 0 2 0 false [false, false] []).isSome := by
  have := C7_ring_walk_terminates.2 [100, 101]
    [(⟨0, 0⟩, ⟨0, 10⟩), (⟨0, 10⟩, ⟨0, 0⟩)] ⟨0, 0⟩ 0 [false, false] []
    (by decide) (by decide)
  exact this

--
-- C1.
--

/-- C1: in every store, inserting a fresh key makes the key visible with its
value, and inserting under an already-present key leaves the store unchanged
with the first value still returned.  For the hash stores this is
`unordered_map::emplace` semantics; for the sorted-array stores a duplicate
key (being ≤ the last key) makes `insert_back` throw, which also leaves the
container unchanged. -/
theorem C1_store_insert_first_wins :
    (∀ (α β : Type) [DecidableEq α] (m : HashMapModel α β) (k : α) (v : β),
      m.at? k = none →
      (m.emplace k v).at? k = some v ∧ (m.emplace k v).count k = 1) ∧
    (∀ (α β : Type) [DecidableEq α] (m : HashMapModel α β) (k : α) (v w : β),
      m.at? k = some w →
      m.emplace k v = m ∧ m.at? k = some w) ∧
    (∀ (V : Type) (s : KeyValArrays V) (k : Nat) (v : V) (s' : KeyValArrays V),
      List.Chain' (fun a b => a < b) s.keys →
      s.keys.length = s.values.length →
      s.insert_back k v = some s' →
      s'.at? k = some v ∧ s'.count k = 1) ∧
    (∀ (V : Type) (s : KeyValArrays V) (k : Nat) (v w : V),
      List.Chain' (fun a b => a < b) s.keys →
      s.at? k = some w →
      s.insert_back k v = none ∧ s.at? k = some w) ∧
    (∀ (V : Type) (s : IndexedKeyValArrays V) (k : Nat) (vs : List V)
        (s' : IndexedKeyValArrays V),
      IndexedKeyValArrays.Inv s →
      s.insert_back k vs = some s' →
      s'.at? k = some vs ∧ s'.count k = 1) ∧
    (∀ (V : Type) (s : IndexedKeyValArrays V) (k : Nat) (vs ws : List V),
      List.Chain' (fun a b => a < b) s.keys →
      s.at? k = some ws →
      s.insert_back k vs = none ∧ s.at? k = some ws) := by
  refine ⟨?h1, ?h2, ?h3, ?h4, ?h5, ?h6⟩
  · intro α β _ m k v h
    have hm : (m.emplace k v) = ⟨m.entries ++ [(k, v)]⟩ := by
      unfold HashMapModel.emplace
      rw [if_neg (by rw [h]; simp)]
    have hfind : m.entries.find? (fun e => e.1 = k) = none := by
      unfold HashMapModel.at? at h
      exact Option.map_eq_none'.mp h
    have hat : (m.emplace k v).at? k = some v := by
      rw [hm]
      unfold HashMapModel.at?
      rw [List.find?_append, hfind]
      simp
    exact ⟨hat, by unfold HashMapModel.count; rw [hat]; rfl⟩
  · intro α β _ m k v w h
    refine ⟨?heq, h⟩
    unfold HashMapModel.emplace
    rw [if_pos (by rw [h]; rfl)]
  · intro V s k v s' hs hlen h
    obtain ⟨hall, rfl⟩ := KeyValArrays.insert_back_some_inv s k v s' hs h
    refine ⟨KeyValArrays.at?_append_self s.keys s.values k v hall hlen, ?hc⟩
    unfold KeyValArrays.count
    rw [if_pos (by simp)]
  · intro V s k v w hs h
    exact ⟨KeyValArrays.insert_back_dup s k v hs (KeyValArrays.at?_mem s k w h), h⟩
  · intro V s k vs s' hinv h
    obtain ⟨hne, hhead, hlast, hlen, hmono, hkeys⟩ := hinv
    obtain ⟨hall, rfl⟩ := IndexedKeyValArrays.insert_back_some_inv_idx s k vs s' hkeys h
    refine ⟨IndexedKeyValArrays.atRange_append_self s.keys s.indexes s.values k vs
      hall hlen hlast, ?hc5⟩
    unfold IndexedKeyValArrays.count
    rw [if_pos (by simp)]
  · intro V s k vs ws hs h
    exact ⟨IndexedKeyValArrays.insert_back_dup_idx s k vs hs
      (IndexedKeyValArrays.at?_mem_idx s k ws h), h⟩

/-- C1 witness at concrete stores of each kind. -/
theorem C1_store_insert_first_wins_witness :
    ((HashMapModel.emplace (⟨[]⟩ : HashMapModel Nat Nat) 1 5).at? 1 = some 5 ∧
      (HashMapModel.emplace (⟨[]⟩ : HashMapModel Nat Nat) 1 5).count 1 = 1) ∧
    (HashMapModel.emplace (⟨[(1, 5)]⟩ : HashMapModel Nat Nat) 1 9 = ⟨[(1, 5)]⟩ ∧
      (⟨[(1, 5)]⟩ : HashMapModel Nat Nat).at? 1 = some 5) ∧
    ((⟨[1, 2], [5, 6]⟩ : KeyValArrays Nat).at? 2 = some 6 ∧
      (⟨[1, 2], [5, 6]⟩ : KeyValArrays Nat).count 2 = 1) ∧
    (KeyValArrays.insert_back (⟨[1], [5]⟩ : KeyValArrays Nat) 1 9 = none ∧
      (⟨[1], [5]⟩ : KeyValArrays Nat).at? 1 = some 5) ∧
    ((⟨[1, 2], [0, 1, 3], [5, 6, 7]⟩ : IndexedKeyValArrays Nat).at? 2 = some [6, 7] ∧
      (⟨[1, 2], [0, 1, 3], [5, 6, 7]⟩ : IndexedKeyValArrays Nat).count 2 = 1) ∧
    (IndexedKeyValArrays.insert_back (⟨[1], [0, 1], [5]⟩ : IndexedKeyValArrays Nat)
        1 [9] = none ∧
      (⟨[1], [0, 1], [5]⟩ : IndexedKeyValArrays Nat).at? 1 = some [5]) := by
  refine ⟨?w1, ?w2, ?w3, ?w4, ?w5, ?w6⟩
  · exact C1_store_insert_first_wins.1 Nat Nat ⟨[]⟩ 1 5 (by decide)
  · exact C1_store_insert_first_wins.2.1 Nat Nat ⟨[(1, 5)]⟩ 1 9 5 (by decide)
  · exact C1_store_insert_first_wins.2.2.1 Nat ⟨[1], [5]⟩ 2 6 ⟨[1, 2], [5, 6]⟩
      (by simp) (by decide) (by decide)
  · exact C1_store_insert_first_wins.2.2.2.1 Nat ⟨[1], [5]⟩ 1 9 5 (by simp) (by decide)
  · exact C1_store_insert_first_wins.2.2.2.2.1 Nat ⟨[1], [0, 1], [5]⟩ 2 [6, 7]
      ⟨[1, 2], [0, 1, 3], [5, 6, 7]⟩
      (by unfold IndexedKeyValArrays.Inv; refine ⟨?_, ?_, ?_, ?_, ?_, ?_⟩ <;> first | decide | simp [List.chain'_cons])
      (by decide)
  · exact C1_store_insert_first_wins.2.2.2.2.2 Nat ⟨[1], [0, 1], [5]⟩ 1 [9] [5]
      (by simp) (by decide)

--
-- C9.
--

/-- C9: `insert_back` on the sorted-array stores throws `out_of_range` when
the key is not strictly greater than the last inserted key — the functional
model returns `none`, and no key, value or index is appended — and otherwise
appends, after which `at` returns the inserted value(s) and `count` is 1. -/
theorem C9_insert_back_order :
    (∀ (V : Type) (s : KeyValArrays V) (k : Nat) (v : V) (kb : Nat),
      s.keys.getLast? = some kb → k ≤ kb → s.insert_back k v = none) ∧
    (∀ (V : Type) (s : KeyValArrays V) (k : Nat) (v : V),
      List.Chain' (fun a b => a < b) s.keys →
      s.keys.length = s.values.length →
      (∀ x ∈ s.keys, x < k) →
      s.insert_back k v = some ⟨s.keys ++ [k], s.values ++ [v]⟩ ∧
        (⟨s.keys ++ [k], s.values ++ [v]⟩ : KeyValArrays V).at? k = some v ∧
        (⟨s.keys ++ [k], s.values ++ [v]⟩ : KeyValArrays V).count k = 1) ∧
    (∀ (V : Type) (s : IndexedKeyValArrays V) (k : Nat) (vs : List V) (kb : Nat),
      s.keys.getLast? = some kb → k ≤ kb → s.insert_back k vs = none) ∧
    (∀ (V : Type) (s : IndexedKeyValArrays V) (k : Nat) (vs : List V),
      IndexedKeyValArrays.Inv s →
      (∀ x ∈ s.keys, x < k) →
      s.insert_back k vs = some
          ⟨s.keys ++ [k], s.indexes ++ [s.values.length + vs.length], s.values ++ vs⟩ ∧
        (⟨s.keys ++ [k], s.indexes ++ [s.values.length + vs.length],
          s.values ++ vs⟩ : IndexedKeyValArrays V).at? k = some vs ∧
        (⟨s.keys ++ [k], s.indexes ++ [s.values.length + vs.length],
          s.values ++ vs⟩ : IndexedKeyValArrays V).count k = 1) := by
  refine ⟨?h1, ?h2, ?h3, ?h4⟩
  · intro V s k v kb hlast hk
    unfold KeyValArrays.insert_back
    rw [hlast]
    dsimp only
    rw [if_pos hk]
  · intro V s k v hs hlen hall
    refine ⟨KeyValArrays.insert_back_fresh s k v hall,
      KeyValArrays.at?_append_self s.keys s.values k v hall hlen, ?hc⟩
    unfold KeyValArrays.count
    rw [if_pos (by simp)]
  · intro V s k vs kb hlast hk
    unfold IndexedKeyValArrays.insert_back
    rw [hlast]
    dsimp only
    rw [if_pos hk]
  · intro V s k vs hinv hall
    obtain ⟨hne, hhead, hlast, hlen, hmono, hkeys⟩ := hinv
    refine ⟨IndexedKeyValArrays.insert_back_fresh_idx s k vs hall,
      IndexedKeyValArrays.atRange_append_self s.keys s.indexes s.values k vs
        hall hlen hlast, ?hc4⟩
    unfold IndexedKeyValArrays.count
    rw [if_pos (by simp)]

/-- C9 witness at concrete stores. -/
theorem C9_insert_back_order_witness :
    KeyValArrays.insert_back (⟨[3], [5]⟩ : KeyValArrays Nat) 3 9 = none ∧
    (KeyValArrays.insert_back (⟨[3], [5]⟩ : KeyValArrays Nat) 4 9 =
        some ⟨[3, 4], [5, 9]⟩ ∧
      (⟨[3, 4], [5, 9]⟩ : KeyValArrays Nat).at? 4 = some 9 ∧
      (⟨[3, 4], [5, 9]⟩ : KeyValArrays Nat).count 4 = 1) ∧
    IndexedKeyValArrays.insert_back (⟨[3], [0, 1], [5]⟩ : IndexedKeyValArrays Nat)
        2 [9] = none ∧
    (IndexedKeyValArrays.insert_back (⟨[3], [0, 1], [5]⟩ : IndexedKeyValArrays Nat)
        4 [9, 8] = some ⟨[3, 4], [0, 1, 3], [5, 9, 8]⟩ ∧
      (⟨[3, 4], [0, 1, 3], [5, 9, 8]⟩ : IndexedKeyValArrays Nat).at? 4 = some [9, 8] ∧
      (⟨[3, 4], [0, 1, 3], [5, 9, 8]⟩ : IndexedKeyValArrays Nat).count 4 = 1) := by
  refine ⟨?w1, ?w2, ?w3, ?w4⟩
  · exact C9_insert_back_order.1 Nat ⟨[3], [5]⟩ 3 9 3 (by decide) (by decide)
  · exact C9_insert_back_order.2.1 Nat ⟨[3], [5]⟩ 4 9 (by simp) (by decide) (by decide)
  · exact C9_insert_back_order.2.2.1 Nat ⟨[3], [0, 1], [5]⟩ 2 [9] 3 (by decide) (by decide)
  · exact C9_insert_back_order.2.2.2 Nat ⟨[3], [0, 1], [5]⟩ 4 [9, 8]
      (by unfold IndexedKeyValArrays.Inv; refine ⟨?_, ?_, ?_, ?_, ?_, ?_⟩ <;> first | decide | simp [List.chain'_cons])
      (by decide)

--
-- C10.
--

/-- C10: every operation of IndexedKeyValArrays preserves the structural
invariant, and under it `at` denotes a well-formed sub-range of `values`. -/
theorem C10_indexed_invariant :
    (∀ (V : Type), IndexedKeyValArrays.Inv
      (IndexedKeyValArrays.init : IndexedKeyValArrays V)) ∧
    (∀ (V : Type) (s : IndexedKeyValArrays V) (k : Nat) (vs : List V)
        (s' : IndexedKeyValArrays V),
      IndexedKeyValArrays.Inv s → s.insert_back k vs = some s' →
      IndexedKeyValArrays.Inv s') ∧
    (∀ (V : Type) (s : IndexedKeyValArrays V), IndexedKeyValArrays.Inv s.clear) ∧
    (∀ (V : Type) (s : IndexedKeyValArrays V) (k b e : Nat),
      IndexedKeyValArrays.Inv s → s.atRange? k = some (b, e) →
      b ≤ e ∧ e ≤ s.values.length) := by
  refine ⟨?h1, ?h2, ?h3, ?h4⟩
  · intro V
    exact IndexedKeyValArrays.inv_init
  · intro V s k vs s' hinv h
    exact IndexedKeyValArrays.inv_insert_back s k vs s' hinv h
  · intro V s
    exact IndexedKeyValArrays.inv_clear s
  · intro V s k b e hinv h
    exact IndexedKeyValArrays.inv_atRange s k b e hinv h

/-- C10 witness at a concrete store. -/
theorem C10_indexed_invariant_witness :
    IndexedKeyValArrays.Inv (⟨[1, 2], [0, 1, 3], [5, 6, 7]⟩ : IndexedKeyValArrays Nat) ∧
      (1 ≤ 3 ∧ 3 ≤ ([5, 6, 7] : List Nat).length) := by
  refine ⟨?wa, ?wb⟩
  · exact C10_indexed_invariant.2.1 Nat ⟨[1], [0, 1], [5]⟩ 2 [6, 7]
      ⟨[1, 2], [0, 1, 3], [5, 6, 7]⟩
      (by unfold IndexedKeyValArrays.Inv; refine ⟨?_, ?_, ?_, ?_, ?_, ?_⟩ <;> first | decide | simp [List.chain'_cons])
      (by decide)
  · exact C10_indexed_invariant.2.2.2 Nat ⟨[1, 2], [0, 1, 3], [5, 6, 7]⟩ 2 1 3
      (by unfold IndexedKeyValArrays.Inv; refine ⟨?_, ?_, ?_, ?_, ?_, ?_⟩ <;> first | decide | simp [List.chain'_cons])
      (by decide)

--
-- C3.
--

/-- Within oracle of the C3 counterexample, inner side: a single inner ring
that lies within all three outer rings 0, 1, 2.  The scene is realizable
with axis-aligned boxes: outer 0 = [0,10]×[0,10], outer 1 = [2,12]×[2,6],
outer 2 = [1,5]×[1,5], inner = [3,4]×[3,4]. -/
def winInnerc : Nat → Nat → Bool := fun _ j => decide (j < 3)

/-- Within oracle of the C3 counterexample, outer-vs-outer side: of the
boxes above only outer 2 lies within outer 0. -/
def withinOOc : Nat → Nat → Bool := fun j p => decide (j = 2 ∧ p = 0)

/-- C3 counterexample: scanning outers 0, 1, 2 in order, the loop first
takes 0, skips 1 (not within 0), then takes 2 (within 0) — but the chosen
parent 2 is not within the other candidate 1, so the chosen parent is not
the smallest enclosing candidate the claim promises. -/
theorem C3_smallest_enclosing_counterexample :
    OSMStore.parentSelect (winInnerc 0) withinOOc 3 = some 2 ∧
      winInnerc 0 1 = true ∧ withinOOc 2 1 = false := by
  decide

/-- C3 (amended): the chosen parent is always a candidate — an outer ring
that contains the inner.  It is contained in every other candidate provided
the candidates are pairwise comparable under `geom::within` and `within` is
transitive on them (in particular whenever the containing outers are
properly nested); without that proviso a later candidate can be selected
over an incomparable earlier one, as the counterexample shows.  An inner
ring contained in no outer ring contributes none of its way IDs to the
returned encoded sequence. -/
theorem C3_parenting_amended :
    (∀ (winInner : Nat → Bool) (withinOO : Nat → Nat → Bool) (n p : Nat),
      OSMStore.parentSelect winInner withinOO n = some p →
      p < n ∧ winInner p = true) ∧
    (∀ (winInner : Nat → Bool) (withinOO : Nat → Nat → Bool) (n p : Nat),
      (∀ i j, i < n → j < n → winInner i = true → winInner j = true → i ≠ j →
        withinOO i j = true ∨ withinOO j i = true) →
      (∀ i j k, i < n → j < n → k < n → withinOO i j = true →
        withinOO j k = true → withinOO i k = true) →
      OSMStore.parentSelect winInner withinOO n = some p →
      ∀ j, j < n → winInner j = true → j ≠ p → withinOO p j = true) ∧
    (∀ (winInner : Nat → Nat → Bool) (withinOO : Nat → Nat → Bool)
        (outerVecs innerVecs : List (List WayID)) (k : Nat) (w : WayID),
      OSMStore.parentSelect (winInner k) withinOO outerVecs.length = none →
      w ∈ innerVecs.getD k [] →
      w ≠ PSEUDO_WAY_OUTER_MARK → w ≠ PSEUDO_WAY_INNER_MARK →
      (∀ j, w ∉ outerVecs.getD j []) →
      (∀ k', OSMStore.parentSelect (winInner k') withinOO outerVecs.length ≠ none →
        w ∉ innerVecs.getD k' []) →
      w ∉ OSMStore.correctRelParenting winInner withinOO outerVecs innerVecs) := by
  refine ⟨?hcand, ?hmin, ?hdrop⟩
  · intro winInner withinOO n p h
    exact OSMStore.parentSelect_is_candidate winInner withinOO n p h
  · intro winInner withinOO n p htot htrans h
    exact OSMStore.parentSelect_min winInner withinOO n p htot htrans h
  · intro winInner withinOO outerVecs innerVecs k w _ _ hO hI houter hinner hmem
    rcases OSMStore.correctRelParenting_mem winInner withinOO outerVecs innerVecs
      w hmem with h | h | ⟨j, hj⟩ | ⟨k', hk', hw'⟩
    · exact hO h
    · exact hI h
    · exact houter j hj
    · exact hinner k' hk' hw'

/-- C3 amended-theorem witness at concrete oracles. -/
theorem C3_parenting_amended_witness :
    (2 < 3 ∧ winInnerc 0 2 = true) ∧
      (fun (_ _ : Nat) => true) 1 0 = true ∧
      (9 : WayID) ∉ OSMStore.correctRelParenting (fun _ _ => false) (fun _ _ => true)
        [[7]] [[9]] := by
  refine ⟨?w1, ?w2, ?w3⟩
  · exact C3_parenting_amended.1 (winInnerc 0) withinOOc 3 2 (by decide)
  · exact C3_parenting_amended.2.1 (fun _ => true) (fun _ _ => true) 2 1
      (fun i j hi hj _ _ hne => Or.inl rfl)
      (fun i j k _ _ _ _ _ => rfl)
      (by decide) 0 (by decide) rfl (by decide)
  · exact C3_parenting_amended.2.2 (fun _ _ => false) (fun _ _ => true) [[7]] [[9]]
      0 9 (by decide) (by decide) (by decide) (by decide)
      (fun j => by
        cases j with
        | zero => decide
        | succ j =>
          rw [List.getD_eq_default _ _ (by simp)]
          exact List.not_mem_nil 9)
      (fun k' hk' => absurd rfl hk')

--
-- C2.
--

/-- C2: the wayListMultiPolygon walk refines the spec's §4.3 state machine —
the first ring and every ring after an OUTER_MARK starts a new polygon with
that ring as its outer, every ring after an INNER_MARK is appended to the
current polygon's inners; in particular `[10, OUTER_MARK, 11]` over ways 10
and 11 with resolvable nodes yields exactly two polygons with no inners. -/
theorem C2_wayListMultiPolygon_walk :
    (∀ (st : OSMStore) (first : OSMStore.RingDesc)
        (rest : List (Bool × OSMStore.RingDesc)) (r0 : Ring),
      (∀ u ∈ first, OSMStore.isRealWayId u.2) →
      (∀ s ∈ rest, ∀ u ∈ s.2, OSMStore.isRealWayId u.2) →
      (∀ s ∈ rest, ∃ r, OSMStore.ringWays st s.2 [] = some r) →
      OSMStore.ringWays st first [] = some r0 →
      (first ≠ [] ∨ rest ≠ []) →
      OSMStore.wayListMultiPolygonRaw st (OSMStore.encodeMP first rest) =
        OSMStore.specAssemble st [⟨r0, []⟩] rest) ∧
    (∀ (corr : Ring → Ring) (st : OSMStore) (nl10 nl11 : List NodeID)
        (r10 r11 : Ring),
      st.ways.at? 10 = some nl10 →
      st.ways.at? 11 = some nl11 →
      OSMStore.fillPoints st.nodes [] nl10 false = some r10 →
      OSMStore.fillPoints st.nodes [] nl11 false = some r11 →
      OSMStore.wayListMultiPolygon corr st [10, PSEUDO_WAY_OUTER_MARK, 11] =
        some [⟨corr r10, []⟩, ⟨corr r11, []⟩]) := by
  refine ⟨?hrefine, ?hconcrete⟩
  · intro st first rest r0 hreal1 hreal2 hres hr0 hne
    exact OSMStore.wayListMultiPolygonRaw_encodeMP st first rest r0
      hreal1 hreal2 hres hr0 hne
  · intro corr st nl10 nl11 r10 r11 h10 h11 hf10 hf11
    have hr10 : OSMStore.ringWays st [(false, 10)] [] = some r10 := by
      unfold OSMStore.ringWays
      rw [h10]
      dsimp only
      rw [hf10]
      rfl
    have hr11 : OSMStore.ringWays st [(false, 11)] [] = some r11 := by
      unfold OSMStore.ringWays
      rw [h11]
      dsimp only
      rw [hf11]
      rfl
    have hmain := OSMStore.wayListMultiPolygonRaw_encodeMP st [(false, 10)]
      [(true, [(false, 11)])] r10
      (by intro u hu; rcases List.mem_singleton.mp hu with rfl; decide)
      (by
        intro sd hsd u hu
        rcases List.mem_singleton.mp hsd with rfl
        rcases List.mem_singleton.mp hu with rfl
        decide)
      (by
        intro sd hsd
        rcases List.mem_singleton.mp hsd with rfl
        exact ⟨r11, hr11⟩)
      hr10
      (Or.inl (by simp))
    have henc : OSMStore.encodeMP [(false, 10)] [(true, [(false, 11)])] =
        [10, PSEUDO_WAY_OUTER_MARK, 11] := rfl
    have hspec : OSMStore.specAssemble st [⟨r10, []⟩] [(true, [(false, 11)])] =
        some [⟨r10, []⟩, ⟨r11, []⟩] := by
      unfold OSMStore.specAssemble
      rw [hr11]
      dsimp only
      rfl
    rw [henc] at hmain
    unfold OSMStore.wayListMultiPolygon
    rw [hmain, hspec]
    rfl

/-- C2 witness over the sample store. -/
theorem C2_wayListMultiPolygon_walk_witness :
    OSMStore.wayListMultiPolygon id sampleStore [10, PSEUDO_WAY_OUTER_MARK, 11] =
      some [⟨[((0 : Int), (0 : Int)), (10, 0), (10, 10), (0, 10), (0, 0)], []⟩,
        ⟨[((100 : Int), (100 : Int)), (110, 100), (110, 110), (100, 110), (100, 100)],
          []⟩] ∧
    OSMStore.wayListMultiPolygonRaw sampleStore (OSMStore.encodeMP [(false, 10)] []) =
      OSMStore.specAssemble sampleStore
        [⟨[((0 : Int), (0 : Int)), (10, 0), (10, 10), (0, 10), (0, 0)], []⟩] [] := by
  refine ⟨?w1, ?w2⟩
  · exact C2_wayListMultiPolygon_walk.2 id sampleStore [1, 2, 3, 4, 1] [5, 6, 7, 8, 5]
      [(0, 0), (10, 0), (10, 10), (0, 10), (0, 0)]
      [(100, 100), (110, 100), (110, 110), (100, 110), (100, 100)]
      (by decide) (by decide) (by decide) (by decide)
  · exact C2_wayListMultiPolygon_walk.1 sampleStore [(false, 10)] []
      [(0, 0), (10, 0), (10, 10), (0, 10), (0, 0)]
      (by intro u hu; rcases List.mem_singleton.mp hu with rfl; decide)
      (by intro sd hsd; cases hsd)
      (by intro sd hsd; cases hsd)
      (by decide)
      (Or.inl (by simp))

end Tilemaker
